import Mathlib

set_option maxHeartbeats 2000000

/-!
Verification of the silhouette-to-collision-polygon extraction pipeline of
`src/game.js` (contour extraction, simplification, scaling, caching and
fallback logic).  The JavaScript functions are shallowly embedded as Lean
definitions; machine numbers appearing in the pipeline are small integers, so
`Nat`/`Int` model them exactly, and the one floating-point comparison
(`Math.hypot(dx, dy) > 15`) is modelled by the equivalent exact integer test
`dx^2 + dy^2 > 225`.
-/

namespace Game

/-- A decoded raster image: `width`, `height`, and the RGBA byte buffer of
`ctx.getImageData(0, 0, w, h).data`, modelled as a function from byte index
to byte value. -/
structure Image where
  w : Nat
  h : Nat
  data : Nat → Nat

/-- `const alphaThreshold = 10;` in `getVerticesFromImage`. -/
def alphaThreshold : Nat := 10

/-- `getVal(x, y)` of `getVerticesFromImage` (src/game.js lines 87-91):
returns 0 outside `[0, w) × [0, h)`, otherwise 1 exactly when the alpha byte
at index `(y*w + x)*4 + 3` strictly exceeds the threshold. -/
def getVal (img : Image) (x y : Int) : Nat :=
  if x < 0 ∨ y < 0 ∨ (img.w : Int) ≤ x ∨ (img.h : Int) ≤ y then 0
  else if alphaThreshold < img.data ((y.toNat * img.w + x.toNat) * 4 + 3) then 1 else 0

/-- `const isSolid = (x, y) => getVal(x, y) === 1;` (line 108). -/
def isSolid (img : Image) (x y : Int) : Bool := getVal img x y == 1

/-- A raster-space point, as pushed onto `path`. -/
structure Point where
  x : Int
  y : Int
deriving DecidableEq, Repr

/-- The values visited by `for (let x = 0; x < bound; x += step)`. -/
def sampleCoords (bound step : Nat) : List Nat :=
  (List.range ((bound + step - 1) / step)).map (fun k => k * step)

/-- The row-major seed scan of lines 93-102 (repeated verbatim in lines
110-115): top-to-bottom, left-to-right over the sampling grid, returning the
first solid sample. -/
def findSeed (img : Image) (step : Nat) : Option Point :=
  (sampleCoords img.h step).findSome? (fun (y : Nat) =>
    (sampleCoords img.w step).findSome? (fun (x : Nat) =>
      if getVal img (x : Int) (y : Int) = 1 then some ⟨(x : Int), (y : Int)⟩ else none))

/-- The candidate move of lines 129-133: `nx += step` for direction 0,
`ny += step` for 1, `nx -= step` for 2, `ny -= step` for 3. -/
def movePos (step cx cy : Int) (d : Nat) : Int × Int :=
  let nx := if d = 0 then cx + step else cx
  let nx := if d = 2 then nx - step else nx
  let ny := if d = 1 then cy + step else cy
  let ny := if d = 3 then ny - step else ny
  (nx, ny)

/-- `const checkDirs = [(dir + 3) % 4, dir, (dir + 1) % 4, (dir + 2) % 4];`
(line 126). -/
def checkDirs (dir : Nat) : List Nat :=
  [(dir + 3) % 4, dir, (dir + 1) % 4, (dir + 2) % 4]

/-- Solidity of the target of candidate direction `d` (the `isSolid(nx, ny)`
test of line 135). -/
def solidDir (img : Image) (step cx cy : Int) (d : Nat) : Bool :=
  isSolid img (movePos step cx cy d).1 (movePos step cx cy d).2

/-- The body of the `for (let d of checkDirs)` loop for one candidate
(lines 128-141): the accepted move, or nothing. -/
def tryFun (img : Image) (step cx cy : Int) (d : Nat) : Option (Int × Int × Nat) :=
  if solidDir img step cx cy d then
    some ((movePos step cx cy d).1, (movePos step cx cy d).2, d)
  else none

/-- The `for (let d of checkDirs)` scan of lines 128-142: the first candidate
direction whose target coordinate is solid, together with that target. -/
def tryDirs (img : Image) (step cx cy : Int) (dir : Nat) : Option (Int × Int × Nat) :=
  (checkDirs dir).findSome? (tryFun img step cx cy)

/-- The `do { ... } while ((cx !== sx || cy !== sy) && maxIter > 0);` loop of
lines 123-146.  Each iteration pushes the current position, moves to the first
solid candidate (stopping if none is solid), decrements `maxIter`, and
continues while the position differs from the seed and the budget is
positive.  `fuel` is the current value of `maxIter`. -/
def traceAux (img : Image) (step sx sy : Int) :
    Nat → Int → Int → Nat → List Point → List Point
  | fuel, cx, cy, dir, path =>
    match tryDirs img step cx cy dir with
    | none => path ++ [⟨cx, cy⟩]
    | some (nx, ny, d) =>
      match fuel with
      | 0 => path ++ [⟨cx, cy⟩]
      | f + 1 =>
        if (nx ≠ sx ∨ ny ≠ sy) ∧ 0 < f then
          traceAux img step sx sy f nx ny d (path ++ [⟨cx, cy⟩])
        else path ++ [⟨cx, cy⟩]

/-- The boundary trace of lines 119-146: start at the seed with `dir = 0` and
`maxIter = 5000`. -/
def tracePath (img : Image) (step : Nat) (seed : Point) : List Point :=
  traceAux img (step : Int) seed.x seed.y 5000 seed.x seed.y 0 []

/-- Squared Euclidean distance.  Line 153 computes
`Math.hypot(p1.x - p2.x, p1.y - p2.y)` and compares it with 15; for integer
coordinates that comparison is exactly `distSq > 225`. -/
def distSq (p q : Point) : Int := (p.x - q.x) ^ 2 + (p.y - q.y) ^ 2

/-- The loop of lines 150-157: keep a point exactly when its distance from
the last kept point (`simplified[simplified.length - 1]`) exceeds 15. -/
def simplifyAux : Point → List Point → List Point
  | _, [] => []
  | last, p :: rest =>
    if 225 < distSq last p then p :: simplifyAux p rest else simplifyAux last rest

/-- Lines 148-157: `simplified` starts with `path[0]` when the path is
non-empty, then filters by distance from the last kept point. -/
def simplify : List Point → List Point
  | [] => []
  | p :: rest => p :: simplifyAux p rest

/-- `getVerticesFromImage(img, samplingStep)` (lines 75-160).  The two
identical seed scans of lines 93-104 and 110-117 are both performed; the
final `.map(p => ({x: p.x, y: p.y}))` of line 159 only clones each point and
is the identity here. -/
def getVerticesFromImage (img : Image) (samplingStep : Nat) : Option (List Point) :=
  match findSeed img samplingStep with
  | none => none
  | some _ =>
    match findSeed img samplingStep with
    | none => none
    | some seed => some (simplify (tracePath img samplingStep seed))

/-- `const scale = Math.min(maxDim / img.width, maxDim / img.height);` with
`maxDim = 120` (lines 177-178), modelled exactly over the rationals. -/
def scaleFactor (w h : Nat) : ℚ := min (120 / (w : ℚ)) (120 / (h : ℚ))

/-- `v => ({ x: v.x * scale, y: v.y * scale })` (line 181). -/
def scalePoint (s : ℚ) (p : Point) : ℚ × ℚ := ((p.x : ℚ) * s, (p.y : ℚ) * s)

/-- The value stored in `vertexCache[randomAsset]` by `spawnNewBody`
(lines 184 and 187): scaled vertices (or null), the scale factor, and the
image (kept here as its natural dimensions). -/
structure CacheEntry where
  vertices : Option (List (ℚ × ℚ))
  scale : ℚ
  imgW : Nat
  imgH : Nat
deriving DecidableEq

/-- The `img.onload` body of `spawnNewBody` (lines 175-189): compute the
scale, extract raw vertices with sampling step 4, scale them, and cache the
scaled polygon when it has more than 2 points, otherwise cache `null`
vertices. -/
def buildCacheEntry (img : Image) : CacheEntry :=
  match getVerticesFromImage img 4 with
  | some raw =>
    if 2 < (raw.map (scalePoint (scaleFactor img.w img.h))).length then
      ⟨some (raw.map (scalePoint (scaleFactor img.w img.h))),
        scaleFactor img.w img.h, img.w, img.h⟩
    else ⟨none, scaleFactor img.w img.h, img.w, img.h⟩
  | none => ⟨none, scaleFactor img.w img.h, img.w, img.h⟩

/-- The geometry handed to the physics engine by `createBody`: either a
polygon (`Bodies.fromVertices`) or a rectangle (`Bodies.rectangle`). -/
inductive CollisionShape where
  | polygon (pts : List (ℚ × ℚ))
  | rectangle (width height : ℚ)
deriving DecidableEq

/-- `const spriteData = { texture: assetPath, xScale: scale, yScale: scale };`
(lines 198-202), geometry part only. -/
structure SpriteData where
  xScale : ℚ
  yScale : ℚ
deriving DecidableEq

/-- The sprite render scale attached to the body by `createBody`. -/
def spriteOf (e : CacheEntry) : SpriteData := ⟨e.scale, e.scale⟩

/-- The shape choice of `createBody` (lines 194-242): cached vertices give a
polygon via `Bodies.fromVertices`; when the vertices are null, or when the
external decomposition fails (`fromVerticesOk = false`, the `if (!body)`
branch of line 217), a rectangle of `img.width * scale` by
`img.height * scale`. -/
def bodyShape (e : CacheEntry) (fromVerticesOk : Bool) : CollisionShape :=
  match e.vertices with
  | some v =>
    if fromVerticesOk then .polygon v
    else .rectangle ((e.imgW : ℚ) * e.scale) ((e.imgH : ℚ) * e.scale)
  | none => .rectangle ((e.imgW : ℚ) * e.scale) ((e.imgH : ℚ) * e.scale)

/-- State of the cache-and-load machinery of `spawnNewBody` (lines 162-192):
the `vertexCache`, the set of images whose `onload` callback is registered
but has not fired yet, and how many times the extraction computation has
run. -/
structure SpawnState where
  cache : Nat → Option CacheEntry
  inflight : List Nat
  extractions : Nat

/-- Events of the single-threaded browser timeline relevant to the cache: a
call to `spawnNewBody` choosing asset `a`, and the completion of the image
load for asset `a`. -/
inductive SpawnEv where
  | spawn (a : Nat)
  | onload (a : Nat)
deriving DecidableEq

def isSpawn : SpawnEv → Bool
  | .spawn _ => true
  | .onload _ => false

def initSpawnState : SpawnState := ⟨fun _ => none, [], 0⟩

/-- One event of `spawnNewBody`: on `spawn a`, a cache hit uses the cached
entry (no extraction) while a miss creates a new `Image` and registers its
`onload` (lines 169-174); on `onload a` (lines 175-189) the callback runs
extraction and overwrites `vertexCache[a]`, without re-checking the cache. -/
def stepSpawn (assetImg : Nat → Image) (s : SpawnState) : SpawnEv → SpawnState
  | .spawn a =>
    match s.cache a with
    | some _ => s
    | none => ⟨s.cache, a :: s.inflight, s.extractions⟩
  | .onload a =>
    if a ∈ s.inflight then
      ⟨fun k => if k = a then some (buildCacheEntry (assetImg a)) else s.cache k,
       s.inflight.erase a, s.extractions + 1⟩
    else s

def runSpawn (assetImg : Nat → Image) (evs : List SpawnEv) : SpawnState :=
  evs.foldl (stepSpawn assetImg) initSpawnState

/-- An image whose opaque region (alpha 255) is exactly the axis-aligned
rectangle `[x0, x0+rw) × [y0, y0+rh)` and which is transparent (alpha 0)
elsewhere, laid out in RGBA row-major order. -/
def rectImage (w h x0 y0 rw rh : Nat) : Image :=
  ⟨w, h, fun idx =>
    if idx % 4 = 3 ∧
       x0 ≤ (idx / 4) % w ∧ (idx / 4) % w < x0 + rw ∧
       y0 ≤ (idx / 4) / w ∧ (idx / 4) / w < y0 + rh
    then 255 else 0⟩

/-- A 1×1 image whose single pixel has alpha exactly equal to the
threshold. -/
def thresholdImage : Image := ⟨1, 1, fun _ => 10⟩

/-- A 2×2 fully transparent image. -/
def blankImage : Image := ⟨2, 2, fun _ => 0⟩

/-- The point that plays the role of `simplified[simplified.length - 1]`
after processing `P` with last-kept point `L`. -/
def lastKept (L : Point) (P : List Point) : Point := (simplifyAux L P).getLastD L

/-- The unit move vector of direction `d` (the displacement `movePos` applies
for step 1 from the origin): 0 ↦ (+1,0), 1 ↦ (0,+1), 2 ↦ (−1,0), 3 ↦ (0,−1). -/
def dirVec (d : Nat) : Int × Int := movePos 1 0 0 d

/-- Right turn: clockwise quarter rotation, in the standard orientation of
the plane spanned by the +x and +y axes. -/
def rotRight (v : Int × Int) : Int × Int := (v.2, -v.1)

/-- Left turn: counterclockwise quarter rotation. -/
def rotLeft (v : Int × Int) : Int × Int := (-v.2, v.1)

/-- Reversal of direction. -/
def rotBack (v : Int × Int) : Int × Int := (-v.1, -v.2)

/-- The hypothesis that the solid samples of `img` reachable on the sampling
lattice of the seed `(ax, ay)` form exactly the grid `(ax + 4 dx, ay + 4 dy)`
for `0 ≤ dx < m`, `0 ≤ dy < n`. -/
def GridRect (img : Image) (ax ay : Int) (m n : Nat) : Prop :=
  ∀ dx dy : Int, isSolid img (ax + 4 * dx) (ay + 4 * dy) = true ↔
    (0 ≤ dx ∧ dx < (m : Int) ∧ 0 ≤ dy ∧ dy < (n : Int))

/-- Points pushed while walking up the left column: from `(ax, ay + 4 j)`
down to `(ax, ay + 4)`, in visit order. -/
def leftPts (ax ay : Int) : Nat → List Point
  | 0 => []
  | j + 1 => ⟨ax, ay + 4 * ((j + 1 : Nat) : Int)⟩ :: leftPts ax ay j

/-- Points pushed while walking left along the bottom row starting at
x-index `i`, ending at `(ax, ay + 4(n-1))`. -/
def bottomPts (ax ay : Int) (n : Nat) : Nat → List Point
  | 0 => [⟨ax, ay + 4 * ((n : Int) - 1)⟩]
  | i + 1 => ⟨ax + 4 * ((i + 1 : Nat) : Int), ay + 4 * ((n : Int) - 1)⟩
      :: bottomPts ax ay n i

/-- Points pushed while walking down the right column with `r` moves left
before the bottom-right corner. -/
def rightPts (ax ay : Int) (m n : Nat) : Nat → List Point
  | 0 => [⟨ax + 4 * ((m : Int) - 1), ay + 4 * ((n : Int) - 1)⟩]
  | r + 1 => ⟨ax + 4 * ((m : Int) - 1), ay + 4 * ((n : Int) - 1 - ((r + 1 : Nat) : Int))⟩
      :: rightPts ax ay m n r

/-- Points pushed while walking right along the top row with `r` moves left
before the top-right corner. -/
def topPts (ax ay : Int) (m : Nat) : Nat → List Point
  | 0 => [⟨ax + 4 * ((m : Int) - 1), ay⟩]
  | r + 1 => ⟨ax + 4 * ((m : Int) - 1 - ((r + 1 : Nat) : Int)), ay⟩ :: topPts ax ay m r

/-- The full ring of sample points visited by the trace of a filled
rectangle of samples, starting at the seed `(ax, ay)`. -/
def ringPath (ax ay : Int) (m n : Nat) : List Point :=
  topPts ax ay m (m - 1) ++ rightPts ax ay m n (n - 2)
    ++ bottomPts ax ay n (m - 2) ++ leftPts ax ay (n - 2)

/-! ### Generic list helpers -/

theorem findSome?_cons_of_none {α β : Type} (f : α → Option β) (a : α) (l : List α)
    (h : f a = none) : (a :: l).findSome? f = l.findSome? f := by
  rw [List.findSome?_cons, h]

theorem findSome?_cons_of_some {α β : Type} (f : α → Option β) (a : α) (l : List α)
    {b : β} (h : f a = some b) : (a :: l).findSome? f = some b := by
  rw [List.findSome?_cons, h]

theorem findSome?_tryFun (img : Image) (step cx cy : Int) :
    ∀ l : List Nat,
      l.findSome? (tryFun img step cx cy)
        = (l.find? (solidDir img step cx cy)).map
            (fun d => ((movePos step cx cy d).1, (movePos step cx cy d).2, d))
  | [] => rfl
  | a :: l => by
    by_cases h : solidDir img step cx cy a
    · rw [findSome?_cons_of_some _ _ _
        (show tryFun img step cx cy a
            = some ((movePos step cx cy a).1, (movePos step cx cy a).2, a) from by
          unfold tryFun; rw [if_pos h]),
        List.find?_cons_of_pos _ h]
      rfl
    · rw [findSome?_cons_of_none _ _ _ (by unfold tryFun; rw [if_neg h]),
        List.find?_cons_of_neg _ h, findSome?_tryFun img step cx cy l]

theorem findSome?_first {α β : Type} (f : α → Option β) (b : β) :
    ∀ (l : List α) (i : Nat) (hi : i < l.length),
      (∀ j, (hj : j < l.length) → j < i → f (l.get ⟨j, hj⟩) = none) →
      f (l.get ⟨i, hi⟩) = some b → l.findSome? f = some b
  | a :: l, 0, _, _, hsome => by
    rw [List.findSome?_cons]
    have ha : f a = some b := hsome
    rw [ha]
  | a :: l, i + 1, hi, hnone, hsome => by
    rw [List.findSome?_cons]
    have ha : f a = none := hnone 0 (by simp) (Nat.succ_pos i)
    rw [ha]
    exact findSome?_first f b l i (by simpa using hi)
      (fun j hj hji => hnone (j + 1) (by simpa using hj) (Nat.succ_lt_succ hji))
      (by simpa using hsome)

theorem getLastD_cons_list {α : Type} (a d : α) (l : List α) :
    (a :: l).getLastD d = l.getLastD a := by
  cases l <;> simp [List.getLastD]

theorem sampleCoords_length (bound step : Nat) :
    (sampleCoords bound step).length = (bound + step - 1) / step := by
  simp [sampleCoords]

theorem sampleCoords_get (bound step : Nat) (i : Nat) (hi : i < (sampleCoords bound step).length) :
    (sampleCoords bound step).get ⟨i, hi⟩ = i * step := by
  simp [sampleCoords]

theorem sampleCoords_mem {bound step a : Nat} (hstep : 0 < step)
    (h : a ∈ sampleCoords bound step) : ∃ k, a = k * step ∧ a < bound := by
  simp only [sampleCoords, List.mem_map, List.mem_range] at h
  obtain ⟨k, hk, rfl⟩ := h
  refine ⟨k, rfl, ?_⟩
  have h1 : k + 1 ≤ (bound + step - 1) / step := hk
  have h2 : (k + 1) * step ≤ ((bound + step - 1) / step) * step :=
    Nat.mul_le_mul_right step h1
  have h3 : ((bound + step - 1) / step) * step ≤ bound + step - 1 :=
    Nat.div_mul_le_self _ _
  have h4 : (k + 1) * step ≤ bound + step - 1 := le_trans h2 h3
  have h5 : k * step + step ≤ bound + step - 1 := by
    calc k * step + step = (k + 1) * step := by ring
    _ ≤ bound + step - 1 := h4
  omega

theorem sampleCoords_mem_of {bound step k : Nat} (hstep : 0 < step) (h : k * step < bound) :
    k * step ∈ sampleCoords bound step := by
  simp only [sampleCoords, List.mem_map, List.mem_range]
  refine ⟨k, ?_, rfl⟩
  have : (k + 1) * step ≤ bound + step - 1 := by
    have : k * step + 1 ≤ bound := h
    calc (k + 1) * step = k * step + step := by ring
    _ ≤ bound + step - 1 := by omega
  have := Nat.div_le_div_right (c := step) this
  rwa [Nat.mul_div_cancel _ hstep] at this

/-! ### Simplification lemmas -/

theorem simplify_cons (p : Point) (rest : List Point) :
    simplify (p :: rest) = p :: simplifyAux p rest := rfl

theorem simplifyAux_cons (L p : Point) (rest : List Point) :
    simplifyAux L (p :: rest) =
      if 225 < distSq L p then p :: simplifyAux p rest else simplifyAux L rest := rfl

theorem simplifyAux_length : ∀ (L : Point) (P : List Point),
    (simplifyAux L P).length ≤ P.length
  | _, [] => Nat.le_refl 0
  | L, p :: rest => by
    unfold simplifyAux
    split
    · simpa using Nat.succ_le_succ (simplifyAux_length p rest)
    · exact le_trans (simplifyAux_length L rest) (Nat.le_succ _)

theorem simplify_length : ∀ P : List Point, (simplify P).length ≤ P.length
  | [] => Nat.le_refl 0
  | p :: rest => by
    rw [simplify_cons]
    simpa using Nat.succ_le_succ (simplifyAux_length p rest)

theorem mem_simplifyAux (q : Point) : ∀ (L : Point) (P : List Point),
    q ∈ simplifyAux L P → q ∈ P
  | _, [], h => by simp [simplifyAux] at h
  | L, p :: rest, h => by
    unfold simplifyAux at h
    split at h
    · rcases List.mem_cons.mp h with h1 | h1
      · exact h1 ▸ List.mem_cons_self p rest
      · exact List.mem_cons_of_mem p (mem_simplifyAux q p rest h1)
    · exact List.mem_cons_of_mem p (mem_simplifyAux q L rest h)

theorem mem_simplify (q : Point) : ∀ P : List Point, q ∈ simplify P → q ∈ P
  | [], h => by simp [simplify] at h
  | p :: rest, h => by
    rw [simplify_cons] at h
    rcases List.mem_cons.mp h with h1 | h1
    · exact h1 ▸ List.mem_cons_self p rest
    · exact List.mem_cons_of_mem p (mem_simplifyAux q p rest h1)

theorem lastKept_nil (L : Point) : lastKept L [] = L := rfl

theorem lastKept_cons (L p : Point) (rest : List Point) :
    lastKept L (p :: rest) =
      if 225 < distSq L p then lastKept p rest else lastKept L rest := by
  unfold lastKept
  rw [simplifyAux_cons]
  split
  · rw [getLastD_cons_list]
  · rfl

theorem simplifyAux_append (L : Point) :
    ∀ A B : List Point,
      simplifyAux L (A ++ B) = simplifyAux L A ++ simplifyAux (lastKept L A) B
  | [], B => by simp [simplifyAux, lastKept_nil]
  | p :: A', B => by
    rw [List.cons_append, simplifyAux_cons, simplifyAux_cons, lastKept_cons]
    split
    · rw [simplifyAux_append p A' B, List.cons_append]
    · rw [simplifyAux_append L A' B]

theorem lastKept_mem (L : Point) (P : List Point) :
    lastKept L P = L ∨ lastKept L P ∈ simplifyAux L P := by
  unfold lastKept
  cases h : simplifyAux L P with
  | nil => left; rfl
  | cons a l =>
    right
    have : (a :: l).getLastD L ∈ a :: l := by
      rw [getLastD_cons_list]
      exact List.getLastD_mem_cons l a
    rw [← h] at this ⊢
    exact this

theorem last_kept_or_close (L : Point) (A : List Point) (p : Point) :
    p ∈ simplifyAux L (A ++ [p]) ∨ distSq (lastKept L A) p ≤ 225 := by
  rw [simplifyAux_append]
  by_cases h : 225 < distSq (lastKept L A) p
  · left
    have : simplifyAux (lastKept L A) [p] = [p] := by
      unfold simplifyAux
      rw [if_pos h]
      rfl
    rw [this]
    simp
  · right; omega

/-! ### Trace-loop lemmas -/

theorem traceAux_none {img : Image} {step sx sy : Int} {fuel : Nat} {cx cy : Int}
    {dir : Nat} (path : List Point) (h : tryDirs img step cx cy dir = none) :
    traceAux img step sx sy fuel cx cy dir path = path ++ [⟨cx, cy⟩] := by
  conv_lhs => unfold traceAux
  rw [h]

theorem traceAux_zero {img : Image} {step sx sy : Int} {cx cy nx ny : Int}
    {dir d : Nat} (path : List Point)
    (h : tryDirs img step cx cy dir = some (nx, ny, d)) :
    traceAux img step sx sy 0 cx cy dir path = path ++ [⟨cx, cy⟩] := by
  conv_lhs => unfold traceAux
  rw [h]

theorem traceAux_step {img : Image} {step sx sy : Int} {f : Nat} {cx cy nx ny : Int}
    {dir d : Nat} (path : List Point)
    (h : tryDirs img step cx cy dir = some (nx, ny, d))
    (hc : (nx ≠ sx ∨ ny ≠ sy) ∧ 0 < f) :
    traceAux img step sx sy (f + 1) cx cy dir path =
      traceAux img step sx sy f nx ny d (path ++ [⟨cx, cy⟩]) := by
  conv_lhs => unfold traceAux
  rw [h]
  exact if_pos hc

theorem traceAux_last {img : Image} {step sx sy : Int} {f : Nat} {cx cy nx ny : Int}
    {dir d : Nat} (path : List Point)
    (h : tryDirs img step cx cy dir = some (nx, ny, d))
    (hc : ¬ ((nx ≠ sx ∨ ny ≠ sy) ∧ 0 < f)) :
    traceAux img step sx sy (f + 1) cx cy dir path = path ++ [⟨cx, cy⟩] := by
  conv_lhs => unfold traceAux
  rw [h]
  exact if_neg hc

theorem traceAux_path (img : Image) (step sx sy : Int) :
    ∀ (fuel : Nat) (cx cy : Int) (dir : Nat) (path : List Point),
      traceAux img step sx sy fuel cx cy dir path
        = path ++ traceAux img step sx sy fuel cx cy dir []
  | fuel, cx, cy, dir, path => by
    cases htry : tryDirs img step cx cy dir with
    | none => rw [traceAux_none path htry, traceAux_none [] htry]; simp
    | some t =>
      obtain ⟨nx, ny, d⟩ := t
      cases fuel with
      | zero => rw [traceAux_zero path htry, traceAux_zero [] htry]; simp
      | succ f =>
        by_cases hc : (nx ≠ sx ∨ ny ≠ sy) ∧ 0 < f
        · rw [traceAux_step path htry hc, traceAux_step [] htry hc]
          simp only [List.nil_append]
          have h1 := traceAux_path img step sx sy f nx ny d (path ++ [(⟨cx, cy⟩ : Point)])
          have h2 := traceAux_path img step sx sy f nx ny d [(⟨cx, cy⟩ : Point)]
          rw [h1, h2, List.append_assoc]
        · rw [traceAux_last path htry hc, traceAux_last [] htry hc]; simp

theorem traceAux_length (img : Image) (step sx sy : Int) :
    ∀ (fuel : Nat) (cx cy : Int) (dir : Nat) (path : List Point), 1 ≤ fuel →
      (traceAux img step sx sy fuel cx cy dir path).length ≤ path.length + fuel
  | fuel, cx, cy, dir, path, hf => by
    cases htry : tryDirs img step cx cy dir with
    | none =>
      rw [traceAux_none path htry]
      simp only [List.length_append, List.length_cons, List.length_nil]
      omega
    | some t =>
      obtain ⟨nx, ny, d⟩ := t
      cases fuel with
      | zero => omega
      | succ f =>
        by_cases hc : (nx ≠ sx ∨ ny ≠ sy) ∧ 0 < f
        · rw [traceAux_step path htry hc]
          have hrec := traceAux_length img step sx sy f nx ny d (path ++ [⟨cx, cy⟩]) hc.2
          simp only [List.length_append, List.length_cons, List.length_nil] at hrec ⊢
          omega
        · rw [traceAux_last path htry hc]
          simp only [List.length_append, List.length_cons, List.length_nil]
          omega

theorem tryDirs_mem {img : Image} {step cx cy nx ny : Int} {dir d : Nat}
    (h : tryDirs img step cx cy dir = some (nx, ny, d)) :
    isSolid img nx ny = true ∧ (nx, ny) = movePos step cx cy d ∧ d ∈ checkDirs dir := by
  obtain ⟨a, ha, hfa⟩ := List.exists_of_findSome?_eq_some h
  unfold tryFun at hfa
  by_cases hs : solidDir img step cx cy a
  · rw [if_pos hs] at hfa
    unfold solidDir at hs
    rw [Option.some.injEq] at hfa
    rw [Prod.ext_iff] at hfa
    obtain ⟨h1, hfa⟩ := hfa
    rw [Prod.ext_iff] at hfa
    obtain ⟨h2, h3⟩ := hfa
    simp only at h1 h2 h3
    subst h3
    constructor
    · rw [← h1, ← h2]; exact hs
    · constructor
      · rw [← h1, ← h2]
      · exact ha
  · rw [if_neg hs] at hfa
    cases hfa

theorem traceAux_mem_inv (img : Image) (step sx sy : Int) (Q : Point → Prop)
    (hmove : ∀ (cx cy : Int) (dir : Nat) (nx ny : Int) (d : Nat), Q ⟨cx, cy⟩ →
      tryDirs img step cx cy dir = some (nx, ny, d) → Q ⟨nx, ny⟩) :
    ∀ (fuel : Nat) (cx cy : Int) (dir : Nat) (path : List Point),
      Q ⟨cx, cy⟩ → (∀ p ∈ path, Q p) →
      ∀ p ∈ traceAux img step sx sy fuel cx cy dir path, Q p
  | fuel, cx, cy, dir, path, hcur, hpath, p, hp => by
    cases htry : tryDirs img step cx cy dir with
    | none =>
      rw [traceAux_none path htry] at hp
      rcases List.mem_append.mp hp with h | h
      · exact hpath p h
      · simp only [List.mem_singleton] at h; exact h ▸ hcur
    | some t =>
      obtain ⟨nx, ny, d⟩ := t
      cases fuel with
      | zero =>
        rw [traceAux_zero path htry] at hp
        rcases List.mem_append.mp hp with h | h
        · exact hpath p h
        · simp only [List.mem_singleton] at h; exact h ▸ hcur
      | succ f =>
        by_cases hc : (nx ≠ sx ∨ ny ≠ sy) ∧ 0 < f
        · rw [traceAux_step path htry hc] at hp
          refine traceAux_mem_inv img step sx sy Q hmove f nx ny d (path ++ [⟨cx, cy⟩])
            (hmove cx cy dir nx ny d hcur htry) ?_ p hp
          intro q hq
          rcases List.mem_append.mp hq with h | h
          · exact hpath q h
          · simp only [List.mem_singleton] at h; exact h ▸ hcur
        · rw [traceAux_last path htry hc] at hp
          rcases List.mem_append.mp hp with h | h
          · exact hpath p h
          · simp only [List.mem_singleton] at h; exact h ▸ hcur

theorem traceAux_ne_seed (img : Image) (step sx sy : Int) :
    ∀ (fuel : Nat) (cx cy : Int) (dir : Nat), ¬(cx = sx ∧ cy = sy) →
      (⟨sx, sy⟩ : Point) ∉ traceAux img step sx sy fuel cx cy dir []
  | fuel, cx, cy, dir, hne => by
    have hcur : (⟨cx, cy⟩ : Point) ≠ ⟨sx, sy⟩ := by
      intro hcontra
      exact hne ⟨congrArg Point.x hcontra, congrArg Point.y hcontra⟩
    cases htry : tryDirs img step cx cy dir with
    | none =>
      rw [traceAux_none [] htry]
      simp only [List.nil_append, List.mem_singleton]
      exact fun h => hcur h.symm
    | some t =>
      obtain ⟨nx, ny, d⟩ := t
      cases fuel with
      | zero =>
        rw [traceAux_zero [] htry]
        simp only [List.nil_append, List.mem_singleton]
        exact fun h => hcur h.symm
      | succ f =>
        by_cases hc : (nx ≠ sx ∨ ny ≠ sy) ∧ 0 < f
        · rw [traceAux_step [] htry hc]
          simp only [List.nil_append]
          have h2 := traceAux_path img step sx sy f nx ny d [(⟨cx, cy⟩ : Point)]
          rw [h2]
          intro hmem
          rcases List.mem_append.mp hmem with h | h
          · simp only [List.mem_singleton] at h
            exact hcur h.symm
          · have hne2 : ¬(nx = sx ∧ ny = sy) := by
              rcases hc.1 with h1 | h1
              · exact fun hh => h1 hh.1
              · exact fun hh => h1 hh.2
            exact traceAux_ne_seed img step sx sy f nx ny d hne2 h
        · rw [traceAux_last [] htry hc]
          simp only [List.nil_append, List.mem_singleton]
          exact fun h => hcur h.symm

theorem traceAux_head (img : Image) (step sx sy : Int) (fuel : Nat) (cx cy : Int)
    (dir : Nat) :
    ∃ rest, traceAux img step sx sy fuel cx cy dir [] = ⟨cx, cy⟩ :: rest := by
  cases htry : tryDirs img step cx cy dir with
  | none => exact ⟨[], traceAux_none [] htry⟩
  | some t =>
    obtain ⟨nx, ny, d⟩ := t
    cases fuel with
    | zero => exact ⟨[], traceAux_zero [] htry⟩
    | succ f =>
      by_cases hc : (nx ≠ sx ∨ ny ≠ sy) ∧ 0 < f
      · refine ⟨traceAux img step sx sy f nx ny d [], ?_⟩
        rw [traceAux_step [] htry hc]
        simp only [List.nil_append]
        exact traceAux_path img step sx sy f nx ny d [(⟨cx, cy⟩ : Point)]
      · exact ⟨[], traceAux_last [] htry hc⟩

/-! ### Sampler and seed lemmas -/

theorem getVal_zero_or_one (img : Image) (x y : Int) :
    getVal img x y = 0 ∨ getVal img x y = 1 := by
  unfold getVal
  split
  · left; rfl
  · split
    · right; rfl
    · left; rfl

theorem getVal_outside (img : Image) (x y : Int)
    (h : x < 0 ∨ y < 0 ∨ (img.w : Int) ≤ x ∨ (img.h : Int) ≤ y) :
    getVal img x y = 0 := by
  unfold getVal
  rw [if_pos h]

theorem getVal_eq_one_iff (img : Image) (x y : Int) :
    getVal img x y = 1 ↔
      (0 ≤ x ∧ x < (img.w : Int) ∧ 0 ≤ y ∧ y < (img.h : Int) ∧
        alphaThreshold < img.data ((y.toNat * img.w + x.toNat) * 4 + 3)) := by
  unfold getVal
  by_cases hb : x < 0 ∨ y < 0 ∨ (img.w : Int) ≤ x ∨ (img.h : Int) ≤ y
  · rw [if_pos hb]
    constructor
    · intro h; exact absurd h (by decide)
    · intro h
      exfalso
      rcases hb with h1 | h1 | h1 | h1 <;> omega
  · rw [if_neg hb]
    push_neg at hb
    obtain ⟨h1, h2, h3, h4⟩ := hb
    by_cases ha : alphaThreshold < img.data ((y.toNat * img.w + x.toNat) * 4 + 3)
    · rw [if_pos ha]
      constructor
      · intro _; exact ⟨h1, h3, h2, h4, ha⟩
      · intro _; rfl
    · rw [if_neg ha]
      constructor
      · intro h; exact absurd h (by decide)
      · intro h; exact absurd h.2.2.2.2 ha

theorem isSolid_iff_getVal (img : Image) (x y : Int) :
    isSolid img x y = true ↔ getVal img x y = 1 := by
  unfold isSolid
  exact beq_iff_eq

theorem findSeed_spec {img : Image} {step : Nat} {p : Point} (hstep : 0 < step)
    (h : findSeed img step = some p) :
    getVal img p.x p.y = 1 ∧ (step : Int) ∣ p.x ∧ (step : Int) ∣ p.y := by
  obtain ⟨y, hy, hy2⟩ := List.exists_of_findSome?_eq_some h
  obtain ⟨x, hx, hx2⟩ := List.exists_of_findSome?_eq_some hy2
  by_cases hv : getVal img (x : Int) (y : Int) = 1
  · rw [if_pos hv] at hx2
    have hp : (⟨(x : Int), (y : Int)⟩ : Point) = p := Option.some.inj hx2
    obtain ⟨kx, hkx, _⟩ := sampleCoords_mem hstep hx
    obtain ⟨ky, hky, _⟩ := sampleCoords_mem hstep hy
    subst hp
    refine ⟨hv, ⟨kx, ?_⟩, ⟨ky, ?_⟩⟩
    · simp only
      rw [hkx]
      push_cast
      ring
    · simp only
      rw [hky]
      push_cast
      ring
  · rw [if_neg hv] at hx2
    cases hx2

theorem movePos_dvd {s cx cy : Int} (d : Nat) (hx : s ∣ cx) (hy : s ∣ cy) :
    s ∣ (movePos s cx cy d).1 ∧ s ∣ (movePos s cx cy d).2 := by
  have hxp : s ∣ cx + s := dvd_add hx dvd_rfl
  have hxm : s ∣ cx - s := dvd_sub hx dvd_rfl
  have hxpm : s ∣ cx + s - s := dvd_sub hxp dvd_rfl
  have hyp : s ∣ cy + s := dvd_add hy dvd_rfl
  have hym : s ∣ cy - s := dvd_sub hy dvd_rfl
  have hypm : s ∣ cy + s - s := dvd_sub hyp dvd_rfl
  unfold movePos
  constructor <;> (simp only) <;> split_ifs <;> assumption

theorem getVertices_some {img : Image} {step : Nat} {seed : Point}
    (h : findSeed img step = some seed) :
    getVerticesFromImage img step = some (simplify (tracePath img step seed)) := by
  unfold getVerticesFromImage
  rw [h]

theorem getVertices_none {img : Image} {step : Nat} (h : findSeed img step = none) :
    getVerticesFromImage img step = none := by
  unfold getVerticesFromImage
  rw [h]

/-! ### Cache-entry and body-shape lemmas -/

theorem buildCacheEntry_none {img : Image} (h : getVerticesFromImage img 4 = none) :
    buildCacheEntry img = ⟨none, scaleFactor img.w img.h, img.w, img.h⟩ := by
  unfold buildCacheEntry
  rw [h]

theorem buildCacheEntry_some {img : Image} {raw : List Point}
    (h : getVerticesFromImage img 4 = some raw) :
    buildCacheEntry img =
      if 2 < (raw.map (scalePoint (scaleFactor img.w img.h))).length then
        ⟨some (raw.map (scalePoint (scaleFactor img.w img.h))),
          scaleFactor img.w img.h, img.w, img.h⟩
      else ⟨none, scaleFactor img.w img.h, img.w, img.h⟩ := by
  unfold buildCacheEntry
  rw [h]

theorem buildCacheEntry_scale (img : Image) :
    (buildCacheEntry img).scale = scaleFactor img.w img.h := by
  cases h : getVerticesFromImage img 4 with
  | none => rw [buildCacheEntry_none h]
  | some raw =>
    rw [buildCacheEntry_some h]
    split <;> rfl

theorem buildCacheEntry_dims (img : Image) :
    (buildCacheEntry img).imgW = img.w ∧ (buildCacheEntry img).imgH = img.h := by
  cases h : getVerticesFromImage img 4 with
  | none => rw [buildCacheEntry_none h]; exact ⟨rfl, rfl⟩
  | some raw =>
    rw [buildCacheEntry_some h]
    split <;> exact ⟨rfl, rfl⟩

theorem bodyShape_none {e : CacheEntry} (h : e.vertices = none) (b : Bool) :
    bodyShape e b = .rectangle ((e.imgW : ℚ) * e.scale) ((e.imgH : ℚ) * e.scale) := by
  unfold bodyShape
  rw [h]

theorem bodyShape_some {e : CacheEntry} {v : List (ℚ × ℚ)} (h : e.vertices = some v) :
    ∀ b, bodyShape e b =
      if b then .polygon v
      else .rectangle ((e.imgW : ℚ) * e.scale) ((e.imgH : ℚ) * e.scale) := by
  intro b
  unfold bodyShape
  rw [h]

/-! ### Spawn-model lemmas -/

theorem stepSpawn_spawn (assetImg : Nat → Image) (s : SpawnState) (b : Nat) :
    stepSpawn assetImg s (.spawn b) =
      match s.cache b with
      | some _ => s
      | none => ⟨s.cache, b :: s.inflight, s.extractions⟩ := rfl

theorem stepSpawn_onload (assetImg : Nat → Image) (s : SpawnState) (b : Nat) :
    stepSpawn assetImg s (.onload b) =
      if b ∈ s.inflight then
        ⟨fun k => if k = b then some (buildCacheEntry (assetImg b)) else s.cache k,
          s.inflight.erase b, s.extractions + 1⟩
      else s := rfl

theorem stepSpawn_cache_inv (assetImg : Nat → Image) (s : SpawnState) (e : SpawnEv)
    (hs : ∀ a, s.cache a = none ∨ s.cache a = some (buildCacheEntry (assetImg a))) :
    ∀ a, (stepSpawn assetImg s e).cache a = none ∨
      (stepSpawn assetImg s e).cache a = some (buildCacheEntry (assetImg a)) := by
  intro a
  cases e with
  | spawn b =>
    rw [stepSpawn_spawn]
    cases hb : s.cache b with
    | none => exact hs a
    | some entry => exact hs a
  | onload b =>
    rw [stepSpawn_onload]
    by_cases hmem : b ∈ s.inflight
    · rw [if_pos hmem]
      by_cases hab : a = b
      · subst hab; right; simp
      · simp only [if_neg hab]
        exact hs a
    · rw [if_neg hmem]
      exact hs a

theorem stepSpawn_count (assetImg : Nat → Image) (s : SpawnState) (e : SpawnEv) :
    (stepSpawn assetImg s e).extractions + (stepSpawn assetImg s e).inflight.length
      ≤ s.extractions + s.inflight.length + (if isSpawn e then 1 else 0) := by
  cases e with
  | spawn b =>
    rw [stepSpawn_spawn]
    cases hb : s.cache b with
    | none => simp [isSpawn]; omega
    | some entry => simp [isSpawn]
  | onload b =>
    rw [stepSpawn_onload]
    by_cases hmem : b ∈ s.inflight
    · rw [if_pos hmem]
      simp only [isSpawn, if_neg Bool.false_ne_true]
      have hlen := List.length_erase_of_mem hmem
      have hpos : 0 < s.inflight.length := List.length_pos.mpr
        (fun hnil => by simp [hnil] at hmem)
      simp only [hlen]
      omega
    · rw [if_neg hmem]
      simp [isSpawn]

theorem foldSpawn_inv (assetImg : Nat → Image) :
    ∀ (evs : List SpawnEv) (s : SpawnState),
      (∀ a, s.cache a = none ∨ s.cache a = some (buildCacheEntry (assetImg a))) →
      (∀ a, (evs.foldl (stepSpawn assetImg) s).cache a = none ∨
        (evs.foldl (stepSpawn assetImg) s).cache a = some (buildCacheEntry (assetImg a)))
      ∧ (evs.foldl (stepSpawn assetImg) s).extractions
          + (evs.foldl (stepSpawn assetImg) s).inflight.length
        ≤ s.extractions + s.inflight.length + (evs.filter isSpawn).length
  | [], s, hs => ⟨hs, by simp⟩
  | e :: evs, s, hs => by
    have hstep := stepSpawn_cache_inv assetImg s e hs
    obtain ⟨hc, hn⟩ := foldSpawn_inv assetImg evs (stepSpawn assetImg s e) hstep
    refine ⟨hc, ?_⟩
    have hcount := stepSpawn_count assetImg s e
    simp only [List.foldl_cons] at *
    have hfil : (List.filter isSpawn (e :: evs)).length
        = (if isSpawn e then 1 else 0) + (List.filter isSpawn evs).length := by
      rw [List.filter_cons]
      split
      · rename_i hsp; simp [hsp]; omega
      · rename_i hsp; simp [hsp]
    omega

/-! ### Claim theorems -/

/-- C1: for each of the four axis directions, the tracer evaluates the
candidate moves in the fixed priority order right turn, straight ahead, left
turn, reverse (turns taken in the standard orientation of the (+x, +y)
plane); it moves to the first candidate in that order whose target
coordinate is solid, and when no candidate is solid the loop stops,
returning the path extended with the current position only. -/
theorem tracer_priority_order (img : Image) (step cx cy : Int) (dir : Nat)
    (hdir : dir < 4) :
    ((checkDirs dir).map dirVec =
      [rotRight (dirVec dir), dirVec dir, rotLeft (dirVec dir), rotBack (dirVec dir)])
    ∧ (tryDirs img step cx cy dir =
        ((checkDirs dir).find? (fun d =>
            isSolid img (movePos step cx cy d).1 (movePos step cx cy d).2)).map
          (fun d => ((movePos step cx cy d).1, (movePos step cx cy d).2, d)))
    ∧ (tryDirs img step cx cy dir = none ↔
        ∀ d ∈ checkDirs dir,
          ¬ (isSolid img (movePos step cx cy d).1 (movePos step cx cy d).2 = true))
    ∧ (∀ (sx sy : Int) (fuel : Nat) (path : List Point),
        tryDirs img step cx cy dir = none →
          traceAux img step sx sy fuel cx cy dir path = path ++ [⟨cx, cy⟩]) := by
  refine ⟨?_, ?_, ?_, ?_⟩
  · interval_cases dir <;> decide
  · unfold tryDirs
    rw [findSome?_tryFun]
    rfl
  · unfold tryDirs
    rw [findSome?_tryFun, Option.map_eq_none']
    exact List.find?_eq_none
  · intro sx sy fuel path h
    exact traceAux_none path h

/-- Instantiation of the priority-order theorem at direction 0 on a concrete
image. -/
theorem tracer_priority_order_witness :
    (0 < 4)
    ∧ (((checkDirs 0).map dirVec =
        [rotRight (dirVec 0), dirVec 0, rotLeft (dirVec 0), rotBack (dirVec 0)])
      ∧ (tryDirs blankImage 4 0 0 0 =
          ((checkDirs 0).find? (fun d =>
              isSolid blankImage (movePos 4 0 0 d).1 (movePos 4 0 0 d).2)).map
            (fun d => ((movePos 4 0 0 d).1, (movePos 4 0 0 d).2, d)))
      ∧ (tryDirs blankImage 4 0 0 0 = none ↔
          ∀ d ∈ checkDirs 0,
            ¬ (isSolid blankImage (movePos 4 0 0 d).1 (movePos 4 0 0 d).2 = true))
      ∧ (∀ (sx sy : Int) (fuel : Nat) (path : List Point),
          tryDirs blankImage 4 0 0 0 = none →
            traceAux blankImage 4 sx sy fuel 0 0 0 path = path ++ [⟨0, 0⟩])) :=
  ⟨by decide, tracer_priority_order blankImage 4 0 0 0 (by decide)⟩

/-- C3: an image in which no sampled coordinate is solid under the alpha
threshold makes extraction return the explicit no-contour value `none`
deterministically, not an exception. -/
theorem transparent_no_contour (img : Image) (step : Nat)
    (h : ∀ y ∈ sampleCoords img.h step, ∀ x ∈ sampleCoords img.w step,
      getVal img (x : Int) (y : Int) = 0) :
    getVerticesFromImage img step = none := by
  have hseed : findSeed img step = none := by
    unfold findSeed
    rw [List.findSome?_eq_none_iff]
    intro y hy
    rw [List.findSome?_eq_none_iff]
    intro x hx
    rw [if_neg]
    have := h y hy x hx
    omega
  exact getVertices_none hseed

/-- The transparent 2×2 image indeed yields `none`. -/
theorem transparent_no_contour_witness :
    (∀ y ∈ sampleCoords blankImage.h 4, ∀ x ∈ sampleCoords blankImage.w 4,
      getVal blankImage (x : Int) (y : Int) = 0)
    ∧ getVerticesFromImage blankImage 4 = none :=
  ⟨by decide, transparent_no_contour blankImage 4 (by decide)⟩

/-- C5: the boundary-trace loop terminates and degrades gracefully — when a
seed exists the result is always `some` of the simplified traced path (never
discarded, also on budget exhaustion), the traced path starts with the seed,
its length never exceeds the 5000-iteration budget, and the seed position is
never pushed a second time (the loop stops when the walk returns to it). -/
theorem trace_termination (img : Image) (step : Nat) (p : Point)
    (h : findSeed img step = some p) :
    getVerticesFromImage img step = some (simplify (tracePath img step p))
    ∧ (tracePath img step p).head? = some p
    ∧ (tracePath img step p).length ≤ 5000
    ∧ (∃ rest, tracePath img step p = p :: rest ∧ p ∉ rest) := by
  refine ⟨getVertices_some h, ?_, ?_, ?_⟩
  · obtain ⟨rest, hrest⟩ := traceAux_head img (step : Int) p.x p.y 5000 p.x p.y 0
    unfold tracePath
    rw [hrest]
    rfl
  · have hlen := traceAux_length img (step : Int) p.x p.y 5000 p.x p.y 0 [] (by omega)
    unfold tracePath
    simpa using hlen
  · unfold tracePath
    cases htry : tryDirs img (step : Int) p.x p.y 0 with
    | none =>
      refine ⟨[], ?_, by simp⟩
      rw [traceAux_none [] htry]
      rfl
    | some t =>
      obtain ⟨nx, ny, d⟩ := t
      by_cases hc : (nx ≠ p.x ∨ ny ≠ p.y) ∧ 0 < 4999
      · refine ⟨traceAux img (step : Int) p.x p.y 4999 nx ny d [], ?_, ?_⟩
        · rw [show (5000 : Nat) = 4999 + 1 from rfl, traceAux_step [] htry hc]
          simp only [List.nil_append]
          rw [traceAux_path img (step : Int) p.x p.y 4999 nx ny d
            [(⟨p.x, p.y⟩ : Point)]]
          rfl
        · have hne : ¬(nx = p.x ∧ ny = p.y) := by
            rcases hc.1 with h1 | h1
            · exact fun hh => h1 hh.1
            · exact fun hh => h1 hh.2
          exact traceAux_ne_seed img (step : Int) p.x p.y 4999 nx ny d hne
      · refine ⟨[], ?_, by simp⟩
        rw [show (5000 : Nat) = 4999 + 1 from rfl, traceAux_last [] htry hc]
        rfl

/-- Instantiation of the termination theorem at a concrete image whose seed
scan succeeds. -/
theorem trace_termination_witness :
    findSeed (rectImage 8 8 0 0 8 8) 4 = some ⟨0, 0⟩
    ∧ getVerticesFromImage (rectImage 8 8 0 0 8 8) 4
        = some (simplify (tracePath (rectImage 8 8 0 0 8 8) 4 ⟨0, 0⟩))
    ∧ (tracePath (rectImage 8 8 0 0 8 8) 4 ⟨0, 0⟩).length ≤ 5000 :=
  ⟨by decide,
   (trace_termination (rectImage 8 8 0 0 8 8) 4 ⟨0, 0⟩ (by decide)).1,
   (trace_termination (rectImage 8 8 0 0 8 8) 4 ⟨0, 0⟩ (by decide)).2.2.1⟩

/-- C6: simplification never increases the point count, keeps the first
point of a non-empty path as first output, maps the empty path to the empty
output, and keeps a subsequent point exactly when its Euclidean distance
from the last kept point exceeds the minimum segment length 15. -/
theorem simplification_spec :
    (∀ P : List Point, (simplify P).length ≤ P.length)
    ∧ (∀ (p : Point) (rest : List Point), (simplify (p :: rest)).head? = some p)
    ∧ simplify [] = []
    ∧ (∀ (L p : Point) (rest : List Point),
        (15 < Real.sqrt ((distSq L p : ℝ)) →
          simplifyAux L (p :: rest) = p :: simplifyAux p rest)
        ∧ (¬ 15 < Real.sqrt ((distSq L p : ℝ)) →
          simplifyAux L (p :: rest) = simplifyAux L rest)) := by
  refine ⟨simplify_length, fun p rest => rfl, rfl, ?_⟩
  intro L p rest
  have key : 15 < Real.sqrt ((distSq L p : ℝ)) ↔ 225 < distSq L p := by
    rw [Real.lt_sqrt (by norm_num : (0 : ℝ) ≤ 15)]
    norm_num
    exact_mod_cast Iff.rfl
  constructor
  · intro hlt
    rw [simplifyAux_cons, if_pos (key.mp hlt)]
  · intro hge
    rw [simplifyAux_cons, if_neg (fun hcon => hge (key.mpr hcon))]

/-- C4: when the simplified point sequence has fewer than 3 points (also in
the all-empty case, where extraction already returns `none`), the pipeline
caches no contour and the body gets the fallback rectangle of
`img.width * scale` by `img.height * scale`; moreover for every image and
every decomposition outcome the built shape is a usable polygon with more
than 2 points or that fallback rectangle — no outcome is fatal. -/
theorem degenerate_fallback (img : Image)
    (h : ∀ pts, getVerticesFromImage img 4 = some pts → pts.length < 3) :
    (buildCacheEntry img).vertices = none
    ∧ (∀ b, bodyShape (buildCacheEntry img) b =
        .rectangle ((img.w : ℚ) * scaleFactor img.w img.h)
                   ((img.h : ℚ) * scaleFactor img.w img.h))
    ∧ (∀ (img2 : Image) (b : Bool),
        (∃ v, bodyShape (buildCacheEntry img2) b = .polygon v ∧ 2 < v.length)
        ∨ bodyShape (buildCacheEntry img2) b =
            .rectangle ((img2.w : ℚ) * scaleFactor img2.w img2.h)
                       ((img2.h : ℚ) * scaleFactor img2.w img2.h)) := by
  have hev : (buildCacheEntry img).vertices = none := by
    cases hv : getVerticesFromImage img 4 with
    | none => rw [buildCacheEntry_none hv]
    | some raw =>
      rw [buildCacheEntry_some hv, if_neg]
      rw [List.length_map]
      have := h raw hv
      omega
  refine ⟨hev, ?_, ?_⟩
  · intro b
    rw [bodyShape_none hev b, (buildCacheEntry_dims img).1,
      (buildCacheEntry_dims img).2, buildCacheEntry_scale]
  · intro img2 b
    cases hv : getVerticesFromImage img2 4 with
    | none =>
      right
      rw [bodyShape_none (by rw [buildCacheEntry_none hv]) b,
        (buildCacheEntry_dims img2).1, (buildCacheEntry_dims img2).2,
        buildCacheEntry_scale]
    | some raw =>
      by_cases hl : 2 < (raw.map (scalePoint (scaleFactor img2.w img2.h))).length
      · have hvv : (buildCacheEntry img2).vertices
            = some (raw.map (scalePoint (scaleFactor img2.w img2.h))) := by
          rw [buildCacheEntry_some hv, if_pos hl]
        cases b with
        | true =>
          left
          refine ⟨raw.map (scalePoint (scaleFactor img2.w img2.h)), ?_, hl⟩
          rw [bodyShape_some hvv true]
          simp
        | false =>
          right
          rw [bodyShape_some hvv false]
          simp only [Bool.false_eq_true, if_false]
          rw [(buildCacheEntry_dims img2).1, (buildCacheEntry_dims img2).2,
            buildCacheEntry_scale]
      · right
        have hvn : (buildCacheEntry img2).vertices = none := by
          rw [buildCacheEntry_some hv, if_neg hl]
        rw [bodyShape_none hvn b, (buildCacheEntry_dims img2).1,
          (buildCacheEntry_dims img2).2, buildCacheEntry_scale]

/-- Instantiation of the degenerate-fallback theorem on the transparent 2×2
image: no contour is cached and the shape is the fallback rectangle. -/
theorem degenerate_fallback_witness :
    (buildCacheEntry blankImage).vertices = none
    ∧ bodyShape (buildCacheEntry blankImage) true =
        .rectangle ((blankImage.w : ℚ) * scaleFactor blankImage.w blankImage.h)
                   ((blankImage.h : ℚ) * scaleFactor blankImage.w blankImage.h) :=
  ⟨(degenerate_fallback blankImage (fun pts hp => by
      rw [show getVerticesFromImage blankImage 4 = none from by decide] at hp
      cases hp)).1,
   (degenerate_fallback blankImage (fun pts hp => by
      rw [show getVerticesFromImage blankImage 4 = none from by decide] at hp
      cases hp)).2.1 true⟩

/-- C7 counterexample: a 1×1 image whose single pixel has alpha exactly 10
(the threshold).  The claim states the sampler classifies an in-bounds pixel
as solid exactly when its alpha meets the minimum threshold of 10; the code
classifies this pixel as empty because it requires the alpha to strictly
exceed the threshold. -/
theorem sampler_threshold_counterexample :
    ¬ (getVal thresholdImage 0 0 = 1 ↔
        (0 ≤ (0 : Int) ∧ (0 : Int) < (thresholdImage.w : Int)
          ∧ 0 ≤ (0 : Int) ∧ (0 : Int) < (thresholdImage.h : Int)
          ∧ alphaThreshold ≤ thresholdImage.data
              (((0 : Int).toNat * thresholdImage.w + (0 : Int).toNat) * 4 + 3))) := by
  decide

/-- C7 (amended): the sampler classifies `(x, y)` as solid exactly when it
lies inside `[0, width) × [0, height)` and the pixel's alpha value strictly
exceeds the threshold 10; every coordinate outside those bounds is empty
(no wraparound), and the sampler always returns 0 or 1 (no exception). -/
theorem sampler_spec (img : Image) (x y : Int) :
    (getVal img x y = 1 ↔
      (0 ≤ x ∧ x < (img.w : Int) ∧ 0 ≤ y ∧ y < (img.h : Int) ∧
        alphaThreshold < img.data ((y.toNat * img.w + x.toNat) * 4 + 3)))
    ∧ ((x < 0 ∨ y < 0 ∨ (img.w : Int) ≤ x ∨ (img.h : Int) ≤ y) → getVal img x y = 0)
    ∧ (getVal img x y = 0 ∨ getVal img x y = 1) :=
  ⟨getVal_eq_one_iff img x y, getVal_outside img x y, getVal_zero_or_one img x y⟩

/-- C8: the scale factor cached for an image equals
`min (120 / width) (120 / height)`, it multiplies both coordinates of every
contour point, the fallback rectangle is the image size times that same
factor, and the sprite render scales `xScale` and `yScale` attached to the
body both equal it. -/
theorem scaling_uniform (img : Image) (hw : 0 < img.w) (hh : 0 < img.h) :
    (buildCacheEntry img).scale = min (120 / (img.w : ℚ)) (120 / (img.h : ℚ))
    ∧ (∀ raw, getVerticesFromImage img 4 = some raw → 2 < raw.length →
        (buildCacheEntry img).vertices
          = some (raw.map (fun q => ((q.x : ℚ) * scaleFactor img.w img.h,
              (q.y : ℚ) * scaleFactor img.w img.h))))
    ∧ (spriteOf (buildCacheEntry img)).xScale = (buildCacheEntry img).scale
    ∧ (spriteOf (buildCacheEntry img)).yScale = (buildCacheEntry img).scale
    ∧ ((buildCacheEntry img).vertices = none → ∀ b,
        bodyShape (buildCacheEntry img) b =
          .rectangle ((img.w : ℚ) * (buildCacheEntry img).scale)
                     ((img.h : ℚ) * (buildCacheEntry img).scale)) := by
  refine ⟨?_, ?_, rfl, rfl, ?_⟩
  · rw [buildCacheEntry_scale]
    rfl
  · intro raw hraw hlen
    rw [buildCacheEntry_some hraw,
      if_pos (by rw [List.length_map]; exact hlen)]
    rfl
  · intro hnone b
    rw [bodyShape_none hnone b, (buildCacheEntry_dims img).1,
      (buildCacheEntry_dims img).2]

/-- Instantiation of the uniform-scaling theorem on a concrete 8×8 image. -/
theorem scaling_uniform_witness :
    (0 < (rectImage 8 8 0 0 8 8).w ∧ 0 < (rectImage 8 8 0 0 8 8).h)
    ∧ (buildCacheEntry (rectImage 8 8 0 0 8 8)).scale
        = min (120 / ((rectImage 8 8 0 0 8 8).w : ℚ))
              (120 / ((rectImage 8 8 0 0 8 8).h : ℚ))
    ∧ (spriteOf (buildCacheEntry (rectImage 8 8 0 0 8 8))).xScale
        = (buildCacheEntry (rectImage 8 8 0 0 8 8)).scale :=
  ⟨⟨by decide, by decide⟩,
   (scaling_uniform (rectImage 8 8 0 0 8 8) (by decide) (by decide)).1,
   (scaling_uniform (rectImage 8 8 0 0 8 8) (by decide) (by decide)).2.2.1⟩

/-- C9 counterexample: two `spawnNewBody` calls pick the same asset while it
is not yet cached and its image load has not completed; each registers its
own `onload`, and both callbacks run the extraction, so the extraction
computation runs twice, not exactly once. -/
theorem cache_once_counterexample :
    initSpawnState.cache 0 = none
    ∧ (runSpawn (fun _ => blankImage)
        [SpawnEv.spawn 0, SpawnEv.spawn 0, SpawnEv.onload 0, SpawnEv.onload 0]).extractions
        = 2 := by
  constructor
  · rfl
  · decide

/-- C9 (amended): extraction may run more than once for an asset requested
concurrently (at most once per request), but every run computes the same
deterministic entry, so the cache slot of an identifier only ever holds that
one entry value (or nothing) and all callers observe the same cached
contour; the number of extraction runs never exceeds the number of spawn
requests. -/
theorem cache_idempotent (assetImg : Nat → Image) (evs : List SpawnEv) (a : Nat) :
    ((runSpawn assetImg evs).cache a = none ∨
      (runSpawn assetImg evs).cache a = some (buildCacheEntry (assetImg a)))
    ∧ (runSpawn assetImg evs).extractions ≤ (evs.filter isSpawn).length := by
  have hinv := foldSpawn_inv assetImg evs initSpawnState (fun _ => Or.inl rfl)
  unfold runSpawn
  refine ⟨hinv.1 a, ?_⟩
  have h2 := hinv.2
  rw [show initSpawnState.extractions = 0 from rfl,
    show initSpawnState.inflight.length = 0 from rfl] at h2
  omega

/-- C10: every non-null extraction result is non-empty, starts with the seed
found by the row-major grid scan, and all its points have coordinates that
are non-negative multiples of the sampling step lying inside
`[0, width) × [0, height)`. -/
theorem extraction_invariant (img : Image) (step : Nat) (pts : List Point)
    (hstep : 0 < step) (h : getVerticesFromImage img step = some pts) :
    pts ≠ []
    ∧ (∃ seed, findSeed img step = some seed ∧ pts.head? = some seed)
    ∧ (∀ p ∈ pts, (0 ≤ p.x ∧ p.x < (img.w : Int) ∧ 0 ≤ p.y ∧ p.y < (img.h : Int))
        ∧ (step : Int) ∣ p.x ∧ (step : Int) ∣ p.y) := by
  cases hseed : findSeed img step with
  | none => rw [getVertices_none hseed] at h; cases h
  | some seed =>
    rw [getVertices_some hseed] at h
    have hpts : pts = simplify (tracePath img step seed) := (Option.some.inj h).symm
    obtain ⟨hval, hdx, hdy⟩ := findSeed_spec hstep hseed
    have hQ : ∀ p ∈ tracePath img step seed,
        getVal img p.x p.y = 1 ∧ (step : Int) ∣ p.x ∧ (step : Int) ∣ p.y := by
      unfold tracePath
      refine traceAux_mem_inv img (step : Int) seed.x seed.y
        (fun p => getVal img p.x p.y = 1 ∧ (step : Int) ∣ p.x ∧ (step : Int) ∣ p.y)
        ?_ 5000 seed.x seed.y 0 [] ⟨hval, hdx, hdy⟩ (fun p hp => by cases hp)
      intro cx cy dir nx ny d hQcur htry
      obtain ⟨hsol, hmove, _⟩ := tryDirs_mem htry
      obtain ⟨hdx2, hdy2⟩ := movePos_dvd d hQcur.2.1 hQcur.2.2
      refine ⟨(isSolid_iff_getVal img nx ny).mp hsol, ?_, ?_⟩
      · rw [show nx = (movePos (step : Int) cx cy d).1 from congrArg Prod.fst hmove]
        exact hdx2
      · rw [show ny = (movePos (step : Int) cx cy d).2 from congrArg Prod.snd hmove]
        exact hdy2
    obtain ⟨rest, hrest⟩ := traceAux_head img (step : Int) seed.x seed.y 5000
      seed.x seed.y 0
    have htr : tracePath img step seed = (⟨seed.x, seed.y⟩ : Point) :: rest := hrest
    refine ⟨?_, ⟨seed, rfl, ?_⟩, ?_⟩
    · rw [hpts, htr, simplify_cons]
      simp
    · rw [hpts, htr, simplify_cons]
      rfl
    · intro p hp
      rw [hpts] at hp
      have hmem := mem_simplify p _ hp
      have hQp := hQ p hmem
      have hbounds := (getVal_eq_one_iff img p.x p.y).mp hQp.1
      exact ⟨⟨hbounds.1, hbounds.2.1, hbounds.2.2.1, hbounds.2.2.2.1⟩,
        hQp.2.1, hQp.2.2⟩

/-! ### Tracing a filled rectangle of samples

The lemmas below analyse the trace on an image whose solid samples reachable
from the seed form the grid `(ax + 4 dx, ay + 4 dy)` for `0 ≤ dx < m`,
`0 ≤ dy < n`; `GridRect` is that hypothesis. -/

theorem gridSolidF {img : Image} {ax ay : Int} {m n : Nat}
    (hsol : GridRect img ax ay m n) (dx dy : Int)
    (h : ¬(0 ≤ dx ∧ dx < (m : Int) ∧ 0 ≤ dy ∧ dy < (n : Int))) :
    ¬(isSolid img (ax + 4 * dx) (ay + 4 * dy) = true) :=
  fun hT => h ((hsol dx dy).mp hT)

theorem gridSolidT {img : Image} {ax ay : Int} {m n : Nat}
    (hsol : GridRect img ax ay m n) (dx dy : Int)
    (h : 0 ≤ dx ∧ dx < (m : Int) ∧ 0 ≤ dy ∧ dy < (n : Int)) :
    isSolid img (ax + 4 * dx) (ay + 4 * dy) = true :=
  (hsol dx dy).mpr h

theorem rtry_top_straight {img : Image} {ax ay : Int} {m n : Nat}
    (hsol : GridRect img ax ay m n) (dx : Int)
    (hdx0 : 0 ≤ dx) (hdx : dx + 1 < (m : Int)) (hn : 0 < (n : Int)) :
    tryDirs img 4 (ax + 4 * dx) ay 0 = some (ax + 4 * (dx + 1), ay, 0) := by
  have h3 : tryFun img 4 (ax + 4 * dx) ay 3 = none := by
    unfold tryFun
    rw [if_neg]
    show ¬(isSolid img (ax + 4 * dx) (ay - 4) = true)
    rw [show ay - 4 = ay + 4 * (-1 : Int) from by ring]
    exact gridSolidF hsol dx (-1) (by omega)
  have h0 : tryFun img 4 (ax + 4 * dx) ay 0 = some (ax + 4 * dx + 4, ay, 0) := by
    have hc : solidDir img 4 (ax + 4 * dx) ay 0 = true := by
      show isSolid img (ax + 4 * dx + 4) ay = true
      rw [show ax + 4 * dx + 4 = ax + 4 * (dx + 1) from by ring,
        show ay = ay + 4 * (0 : Int) from by ring]
      exact gridSolidT hsol (dx + 1) 0 (by omega)
    unfold tryFun
    rw [if_pos hc]
    rfl
  unfold tryDirs
  rw [show checkDirs 0 = [3, 0, 1, 2] from rfl,
    findSome?_cons_of_none _ _ _ h3, findSome?_cons_of_some _ _ _ h0,
    show ax + 4 * dx + 4 = ax + 4 * (dx + 1) from by ring]

theorem rtry_top_corner {img : Image} {ax ay : Int} {m n : Nat}
    (hsol : GridRect img ax ay m n) (dx : Int)
    (hdx0 : 0 ≤ dx) (hdx : dx < (m : Int)) (hdxm : (m : Int) ≤ dx + 1)
    (hn : 1 < (n : Int)) :
    tryDirs img 4 (ax + 4 * dx) ay 0 = some (ax + 4 * dx, ay + 4 * 1, 1) := by
  have h3 : tryFun img 4 (ax + 4 * dx) ay 3 = none := by
    unfold tryFun
    rw [if_neg]
    show ¬(isSolid img (ax + 4 * dx) (ay - 4) = true)
    rw [show ay - 4 = ay + 4 * (-1 : Int) from by ring]
    exact gridSolidF hsol dx (-1) (by omega)
  have h0 : tryFun img 4 (ax + 4 * dx) ay 0 = none := by
    unfold tryFun
    rw [if_neg]
    show ¬(isSolid img (ax + 4 * dx + 4) ay = true)
    rw [show ax + 4 * dx + 4 = ax + 4 * (dx + 1) from by ring,
      show ay = ay + 4 * (0 : Int) from by ring]
    exact gridSolidF hsol (dx + 1) 0 (by omega)
  have h1 : tryFun img 4 (ax + 4 * dx) ay 1 = some (ax + 4 * dx, ay + 4, 1) := by
    have hc : solidDir img 4 (ax + 4 * dx) ay 1 = true := by
      show isSolid img (ax + 4 * dx) (ay + 4) = true
      rw [show ay + 4 = ay + 4 * (1 : Int) from by ring]
      exact gridSolidT hsol dx 1 (by omega)
    unfold tryFun
    rw [if_pos hc]
    rfl
  unfold tryDirs
  rw [show checkDirs 0 = [3, 0, 1, 2] from rfl,
    findSome?_cons_of_none _ _ _ h3, findSome?_cons_of_none _ _ _ h0,
    findSome?_cons_of_some _ _ _ h1,
    show ay + 4 = ay + 4 * (1 : Int) from by ring]

theorem rtry_right_straight {img : Image} {ax ay : Int} {m n : Nat}
    (hsol : GridRect img ax ay m n) (dx dy : Int)
    (hdx0 : 0 ≤ dx) (hdx : dx < (m : Int)) (hdxm : (m : Int) ≤ dx + 1)
    (hdy0 : 0 ≤ dy) (hdy : dy + 1 < (n : Int)) :
    tryDirs img 4 (ax + 4 * dx) (ay + 4 * dy) 1
      = some (ax + 4 * dx, ay + 4 * (dy + 1), 1) := by
  have h0 : tryFun img 4 (ax + 4 * dx) (ay + 4 * dy) 0 = none := by
    unfold tryFun
    rw [if_neg]
    show ¬(isSolid img (ax + 4 * dx + 4) (ay + 4 * dy) = true)
    rw [show ax + 4 * dx + 4 = ax + 4 * (dx + 1) from by ring]
    exact gridSolidF hsol (dx + 1) dy (by omega)
  have h1 : tryFun img 4 (ax + 4 * dx) (ay + 4 * dy) 1
      = some (ax + 4 * dx, ay + 4 * dy + 4, 1) := by
    have hc : solidDir img 4 (ax + 4 * dx) (ay + 4 * dy) 1 = true := by
      show isSolid img (ax + 4 * dx) (ay + 4 * dy + 4) = true
      rw [show ay + 4 * dy + 4 = ay + 4 * (dy + 1) from by ring]
      exact gridSolidT hsol dx (dy + 1) (by omega)
    unfold tryFun
    rw [if_pos hc]
    rfl
  unfold tryDirs
  rw [show checkDirs 1 = [0, 1, 2, 3] from rfl,
    findSome?_cons_of_none _ _ _ h0, findSome?_cons_of_some _ _ _ h1,
    show ay + 4 * dy + 4 = ay + 4 * (dy + 1) from by ring]

theorem rtry_right_corner {img : Image} {ax ay : Int} {m n : Nat}
    (hsol : GridRect img ax ay m n) (dx dy : Int)
    (hdx1 : 1 ≤ dx) (hdx : dx < (m : Int)) (hdxm : (m : Int) ≤ dx + 1)
    (hdy0 : 0 ≤ dy) (hdy : dy < (n : Int)) (hdyn : (n : Int) ≤ dy + 1) :
    tryDirs img 4 (ax + 4 * dx) (ay + 4 * dy) 1
      = some (ax + 4 * (dx - 1), ay + 4 * dy, 2) := by
  have h0 : tryFun img 4 (ax + 4 * dx) (ay + 4 * dy) 0 = none := by
    unfold tryFun
    rw [if_neg]
    show ¬(isSolid img (ax + 4 * dx + 4) (ay + 4 * dy) = true)
    rw [show ax + 4 * dx + 4 = ax + 4 * (dx + 1) from by ring]
    exact gridSolidF hsol (dx + 1) dy (by omega)
  have h1 : tryFun img 4 (ax + 4 * dx) (ay + 4 * dy) 1 = none := by
    unfold tryFun
    rw [if_neg]
    show ¬(isSolid img (ax + 4 * dx) (ay + 4 * dy + 4) = true)
    rw [show ay + 4 * dy + 4 = ay + 4 * (dy + 1) from by ring]
    exact gridSolidF hsol dx (dy + 1) (by omega)
  have h2 : tryFun img 4 (ax + 4 * dx) (ay + 4 * dy) 2
      = some (ax + 4 * dx - 4, ay + 4 * dy, 2) := by
    have hc : solidDir img 4 (ax + 4 * dx) (ay + 4 * dy) 2 = true := by
      show isSolid img (ax + 4 * dx - 4) (ay + 4 * dy) = true
      rw [show ax + 4 * dx - 4 = ax + 4 * (dx - 1) from by ring]
      exact gridSolidT hsol (dx - 1) dy (by omega)
    unfold tryFun
    rw [if_pos hc]
    rfl
  unfold tryDirs
  rw [show checkDirs 1 = [0, 1, 2, 3] from rfl,
    findSome?_cons_of_none _ _ _ h0, findSome?_cons_of_none _ _ _ h1,
    findSome?_cons_of_some _ _ _ h2,
    show ax + 4 * dx - 4 = ax + 4 * (dx - 1) from by ring]

theorem rtry_bottom_straight {img : Image} {ax ay : Int} {m n : Nat}
    (hsol : GridRect img ax ay m n) (dx dy : Int)
    (hdx1 : 1 ≤ dx) (hdx : dx < (m : Int))
    (hdy0 : 0 ≤ dy) (hdy : dy < (n : Int)) (hdyn : (n : Int) ≤ dy + 1) :
    tryDirs img 4 (ax + 4 * dx) (ay + 4 * dy) 2
      = some (ax + 4 * (dx - 1), ay + 4 * dy, 2) := by
  have h1 : tryFun img 4 (ax + 4 * dx) (ay + 4 * dy) 1 = none := by
    unfold tryFun
    rw [if_neg]
    show ¬(isSolid img (ax + 4 * dx) (ay + 4 * dy + 4) = true)
    rw [show ay + 4 * dy + 4 = ay + 4 * (dy + 1) from by ring]
    exact gridSolidF hsol dx (dy + 1) (by omega)
  have h2 : tryFun img 4 (ax + 4 * dx) (ay + 4 * dy) 2
      = some (ax + 4 * dx - 4, ay + 4 * dy, 2) := by
    have hc : solidDir img 4 (ax + 4 * dx) (ay + 4 * dy) 2 = true := by
      show isSolid img (ax + 4 * dx - 4) (ay + 4 * dy) = true
      rw [show ax + 4 * dx - 4 = ax + 4 * (dx - 1) from by ring]
      exact gridSolidT hsol (dx - 1) dy (by omega)
    unfold tryFun
    rw [if_pos hc]
    rfl
  unfold tryDirs
  rw [show checkDirs 2 = [1, 2, 3, 0] from rfl,
    findSome?_cons_of_none _ _ _ h1, findSome?_cons_of_some _ _ _ h2,
    show ax + 4 * dx - 4 = ax + 4 * (dx - 1) from by ring]

theorem rtry_bottom_corner {img : Image} {ax ay : Int} {m n : Nat}
    (hsol : GridRect img ax ay m n) (dy : Int)
    (hdy1 : 1 ≤ dy) (hdy : dy < (n : Int)) (hdyn : (n : Int) ≤ dy + 1)
    (hm : 0 < (m : Int)) :
    tryDirs img 4 ax (ay + 4 * dy) 2 = some (ax, ay + 4 * (dy - 1), 3) := by
  have h1 : tryFun img 4 ax (ay + 4 * dy) 1 = none := by
    unfold tryFun
    rw [if_neg]
    show ¬(isSolid img ax (ay + 4 * dy + 4) = true)
    rw [show ax = ax + 4 * (0 : Int) from by ring,
      show ay + 4 * dy + 4 = ay + 4 * (dy + 1) from by ring]
    exact gridSolidF hsol 0 (dy + 1) (by omega)
  have h2 : tryFun img 4 ax (ay + 4 * dy) 2 = none := by
    unfold tryFun
    rw [if_neg]
    show ¬(isSolid img (ax - 4) (ay + 4 * dy) = true)
    rw [show ax - 4 = ax + 4 * (-1 : Int) from by ring]
    exact gridSolidF hsol (-1) dy (by omega)
  have h3 : tryFun img 4 ax (ay + 4 * dy) 3
      = some (ax, ay + 4 * dy - 4, 3) := by
    have hc : solidDir img 4 ax (ay + 4 * dy) 3 = true := by
      show isSolid img ax (ay + 4 * dy - 4) = true
      rw [show ax = ax + 4 * (0 : Int) from by ring,
        show ay + 4 * dy - 4 = ay + 4 * (dy - 1) from by ring]
      exact gridSolidT hsol 0 (dy - 1) (by omega)
    unfold tryFun
    rw [if_pos hc]
    rfl
  unfold tryDirs
  rw [show checkDirs 2 = [1, 2, 3, 0] from rfl,
    findSome?_cons_of_none _ _ _ h1, findSome?_cons_of_none _ _ _ h2,
    findSome?_cons_of_some _ _ _ h3,
    show ay + 4 * dy - 4 = ay + 4 * (dy - 1) from by ring]

theorem rtry_left_straight {img : Image} {ax ay : Int} {m n : Nat}
    (hsol : GridRect img ax ay m n) (dy : Int)
    (hdy1 : 1 ≤ dy) (hdy : dy < (n : Int)) (hm : 0 < (m : Int)) :
    tryDirs img 4 ax (ay + 4 * dy) 3 = some (ax, ay + 4 * (dy - 1), 3) := by
  have h2 : tryFun img 4 ax (ay + 4 * dy) 2 = none := by
    unfold tryFun
    rw [if_neg]
    show ¬(isSolid img (ax - 4) (ay + 4 * dy) = true)
    rw [show ax - 4 = ax + 4 * (-1 : Int) from by ring]
    exact gridSolidF hsol (-1) dy (by omega)
  have h3 : tryFun img 4 ax (ay + 4 * dy) 3
      = some (ax, ay + 4 * dy - 4, 3) := by
    have hc : solidDir img 4 ax (ay + 4 * dy) 3 = true := by
      show isSolid img ax (ay + 4 * dy - 4) = true
      rw [show ax = ax + 4 * (0 : Int) from by ring,
        show ay + 4 * dy - 4 = ay + 4 * (dy - 1) from by ring]
      exact gridSolidT hsol 0 (dy - 1) (by omega)
    unfold tryFun
    rw [if_pos hc]
    rfl
  unfold tryDirs
  rw [show checkDirs 3 = [2, 3, 0, 1] from rfl,
    findSome?_cons_of_none _ _ _ h2, findSome?_cons_of_some _ _ _ h3,
    show ay + 4 * dy - 4 = ay + 4 * (dy - 1) from by ring]

theorem traceLeftLeg {img : Image} {ax ay : Int} {m n : Nat}
    (hsol : GridRect img ax ay m n) (hm : 0 < (m : Int)) :
    ∀ (j : Nat), 1 ≤ j → (j : Int) < (n : Int) → ∀ (fuel : Nat), j ≤ fuel →
    ∀ (path : List Point),
      traceAux img 4 ax ay fuel ax (ay + 4 * ((j : Nat) : Int)) 3 path
        = path ++ leftPts ax ay j
  | 0, h1, _, _, _, _ => absurd h1 (by omega)
  | 1, _, h2, fuel, hfuel, path => by
    have htry := rtry_left_straight hsol ((1 : Nat) : Int) (by omega)
      (by exact_mod_cast h2) hm
    rw [show ay + 4 * (((1 : Nat) : Int) - 1) = ay from by push_cast; ring] at htry
    cases fuel with
    | zero => omega
    | succ f =>
      rw [traceAux_last path htry (by simp)]
      rfl
  | j + 2, _, h2, fuel, hfuel, path => by
    have htry := rtry_left_straight hsol ((j + 2 : Nat) : Int) (by push_cast; omega)
      h2 hm
    rw [show ay + 4 * (((j + 2 : Nat) : Int) - 1) = ay + 4 * ((j + 1 : Nat) : Int)
      from by push_cast; ring] at htry
    cases fuel with
    | zero => omega
    | succ f =>
      have hc : ((ax : Int) ≠ ax ∨ ay + 4 * ((j + 1 : Nat) : Int) ≠ ay) ∧ 0 < f := by
        constructor
        · right
          push_cast
          omega
        · omega
      rw [traceAux_step path htry hc,
        traceLeftLeg hsol hm (j + 1) (by omega) (by push_cast at h2 ⊢; omega) f
          (by omega) (path ++ [(⟨ax, ay + 4 * ((j + 2 : Nat) : Int)⟩ : Point)]),
        List.append_assoc]
      norm_num [leftPts, bottomPts, rightPts, topPts, List.append_assoc,
        List.singleton_append, List.cons_append]
      try omega

theorem traceBottomLeg {img : Image} {ax ay : Int} {m n : Nat}
    (hsol : GridRect img ax ay m n) (hm : 2 ≤ m) (hn : 3 ≤ n) :
    ∀ (i : Nat), (i : Int) ≤ (m : Int) - 2 → ∀ (fuel : Nat),
      (i + 1) + (n - 2) ≤ fuel → ∀ (path : List Point),
      traceAux img 4 ax ay fuel (ax + 4 * ((i : Nat) : Int))
          (ay + 4 * ((n : Int) - 1)) 2 path
        = path ++ bottomPts ax ay n i ++ leftPts ax ay (n - 2)
  | 0, _, fuel, hfuel, path => by
    rw [show ax + 4 * (((0 : Nat) : Int)) = ax from by push_cast; ring]
    have htry := rtry_bottom_corner hsol ((n : Int) - 1) (by omega) (by omega)
      (by omega) (by omega)
    rw [show ay + 4 * (((n : Int) - 1) - 1) = ay + 4 * ((n - 2 : Nat) : Int)
      from by rw [Nat.cast_sub (by omega : 2 ≤ n)]; push_cast; ring] at htry
    cases fuel with
    | zero => omega
    | succ f =>
      have hc : ((ax : Int) ≠ ax ∨ ay + 4 * ((n - 2 : Nat) : Int) ≠ ay) ∧ 0 < f := by
        constructor
        · right
          rw [Nat.cast_sub (by omega : 2 ≤ n)]
          push_cast
          omega
        · omega
      rw [traceAux_step path htry hc,
        traceLeftLeg hsol (by omega) (n - 2) (by omega)
          (by rw [Nat.cast_sub (by omega : 2 ≤ n)]; omega) f (by omega)
          (path ++ [(⟨ax, ay + 4 * ((n : Int) - 1)⟩ : Point)]),
        List.append_assoc]
      norm_num [leftPts, bottomPts, rightPts, topPts, List.append_assoc,
        List.singleton_append, List.cons_append]
      try omega
  | i + 1, h2, fuel, hfuel, path => by
    have htry := rtry_bottom_straight hsol ((i + 1 : Nat) : Int) ((n : Int) - 1)
      (by push_cast; omega) (by push_cast; omega) (by omega) (by omega) (by omega)
    rw [show ax + 4 * (((i + 1 : Nat) : Int) - 1) = ax + 4 * ((i : Nat) : Int)
      from by push_cast; ring] at htry
    cases fuel with
    | zero => omega
    | succ f =>
      have hc : (ax + 4 * ((i : Nat) : Int) ≠ ax
          ∨ ay + 4 * ((n : Int) - 1) ≠ ay) ∧ 0 < f := by
        constructor
        · right
          omega
        · omega
      rw [traceAux_step path htry hc,
        traceBottomLeg hsol hm hn i (by push_cast at h2 ⊢; omega) f (by omega)
          (path ++ [(⟨ax + 4 * ((i + 1 : Nat) : Int), ay + 4 * ((n : Int) - 1)⟩ : Point)]),
        List.append_assoc, List.append_assoc]
      norm_num [leftPts, bottomPts, rightPts, topPts, List.append_assoc,
        List.singleton_append, List.cons_append]
      try omega

theorem traceRightLeg {img : Image} {ax ay : Int} {m n : Nat}
    (hsol : GridRect img ax ay m n) (hm : 2 ≤ m) (hn : 3 ≤ n) :
    ∀ (r : Nat), (r : Int) ≤ (n : Int) - 2 → ∀ (fuel : Nat),
      (r + 1) + (m - 1) + (n - 2) ≤ fuel → ∀ (path : List Point),
      traceAux img 4 ax ay fuel (ax + 4 * ((m : Int) - 1))
          (ay + 4 * ((n : Int) - 1 - ((r : Nat) : Int))) 1 path
        = path ++ rightPts ax ay m n r ++ bottomPts ax ay n (m - 2)
            ++ leftPts ax ay (n - 2)
  | 0, _, fuel, hfuel, path => by
    rw [show ay + 4 * ((n : Int) - 1 - ((0 : Nat) : Int)) = ay + 4 * ((n : Int) - 1)
      from by push_cast; ring]
    have htry := rtry_right_corner hsol ((m : Int) - 1) ((n : Int) - 1)
      (by omega) (by omega) (by omega) (by omega) (by omega) (by omega)
    rw [show ax + 4 * (((m : Int) - 1) - 1) = ax + 4 * ((m - 2 : Nat) : Int)
      from by rw [Nat.cast_sub (by omega : 2 ≤ m)]; push_cast; ring] at htry
    cases fuel with
    | zero => omega
    | succ f =>
      have hc : (ax + 4 * ((m - 2 : Nat) : Int) ≠ ax
          ∨ ay + 4 * ((n : Int) - 1) ≠ ay) ∧ 0 < f := by
        constructor
        · right
          omega
        · omega
      rw [traceAux_step path htry hc,
        traceBottomLeg hsol hm hn (m - 2)
          (by rw [Nat.cast_sub (by omega : 2 ≤ m)]; omega) f (by omega)
          (path ++ [(⟨ax + 4 * ((m : Int) - 1), ay + 4 * ((n : Int) - 1)⟩ : Point)]),
        List.append_assoc, List.append_assoc]
      norm_num [leftPts, bottomPts, rightPts, topPts, List.append_assoc,
        List.singleton_append, List.cons_append]
      try omega
  | r + 1, h2, fuel, hfuel, path => by
    have htry := rtry_right_straight hsol ((m : Int) - 1)
      ((n : Int) - 1 - ((r + 1 : Nat) : Int))
      (by omega) (by omega) (by omega) (by push_cast; omega) (by push_cast; omega)
    rw [show ay + 4 * (((n : Int) - 1 - ((r + 1 : Nat) : Int)) + 1)
        = ay + 4 * ((n : Int) - 1 - ((r : Nat) : Int))
      from by push_cast; ring] at htry
    cases fuel with
    | zero => omega
    | succ f =>
      have hc : (ax + 4 * ((m : Int) - 1) ≠ ax
          ∨ ay + 4 * ((n : Int) - 1 - ((r : Nat) : Int)) ≠ ay) ∧ 0 < f := by
        constructor
        · left
          omega
        · omega
      rw [traceAux_step path htry hc,
        traceRightLeg hsol hm hn r (by push_cast at h2 ⊢; omega) f (by omega)
          (path ++ [(⟨ax + 4 * ((m : Int) - 1),
            ay + 4 * ((n : Int) - 1 - ((r + 1 : Nat) : Int))⟩ : Point)]),
        List.append_assoc, List.append_assoc, List.append_assoc]
      norm_num [leftPts, bottomPts, rightPts, topPts, List.append_assoc,
        List.singleton_append, List.cons_append]
      try omega

theorem traceTopLeg {img : Image} {ax ay : Int} {m n : Nat}
    (hsol : GridRect img ax ay m n) (hm : 2 ≤ m) (hn : 3 ≤ n) :
    ∀ (r : Nat), (r : Int) ≤ (m : Int) - 1 → ∀ (fuel : Nat),
      (r + 1) + (n - 1) + (m - 1) + (n - 2) ≤ fuel → ∀ (path : List Point),
      traceAux img 4 ax ay fuel (ax + 4 * ((m : Int) - 1 - ((r : Nat) : Int))) ay 0 path
        = path ++ topPts ax ay m r ++ rightPts ax ay m n (n - 2)
            ++ bottomPts ax ay n (m - 2) ++ leftPts ax ay (n - 2)
  | 0, _, fuel, hfuel, path => by
    rw [show ax + 4 * ((m : Int) - 1 - ((0 : Nat) : Int)) = ax + 4 * ((m : Int) - 1)
      from by push_cast; ring]
    have htry := rtry_top_corner hsol ((m : Int) - 1)
      (by omega) (by omega) (by omega) (by omega)
    rw [show ay + 4 * (1 : Int)
        = ay + 4 * ((n : Int) - 1 - ((n - 2 : Nat) : Int))
      from by rw [Nat.cast_sub (by omega : 2 ≤ n)]; push_cast; ring] at htry
    cases fuel with
    | zero => omega
    | succ f =>
      have hc : (ax + 4 * ((m : Int) - 1) ≠ ax
          ∨ ay + 4 * ((n : Int) - 1 - ((n - 2 : Nat) : Int)) ≠ ay) ∧ 0 < f := by
        constructor
        · left
          omega
        · omega
      rw [traceAux_step path htry hc,
        traceRightLeg hsol hm hn (n - 2)
          (by rw [Nat.cast_sub (by omega : 2 ≤ n)]; omega) f (by omega)
          (path ++ [(⟨ax + 4 * ((m : Int) - 1), ay⟩ : Point)]),
        List.append_assoc, List.append_assoc, List.append_assoc]
      norm_num [leftPts, bottomPts, rightPts, topPts, List.append_assoc,
        List.singleton_append, List.cons_append]
      try omega
  | r + 1, h2, fuel, hfuel, path => by
    have htry := rtry_top_straight hsol ((m : Int) - 1 - ((r + 1 : Nat) : Int))
      (by push_cast; omega) (by push_cast; omega) (by omega)
    rw [show ax + 4 * (((m : Int) - 1 - ((r + 1 : Nat) : Int)) + 1)
        = ax + 4 * ((m : Int) - 1 - ((r : Nat) : Int))
      from by push_cast; ring] at htry
    cases fuel with
    | zero => omega
    | succ f =>
      have hc : (ax + 4 * ((m : Int) - 1 - ((r : Nat) : Int)) ≠ ax
          ∨ (ay : Int) ≠ ay) ∧ 0 < f := by
        constructor
        · left
          push_cast at h2 ⊢
          omega
        · omega
      rw [traceAux_step path htry hc,
        traceTopLeg hsol hm hn r (by push_cast at h2 ⊢; omega) f (by omega)
          (path ++ [(⟨ax + 4 * ((m : Int) - 1 - ((r + 1 : Nat) : Int)), ay⟩ : Point)]),
        List.append_assoc, List.append_assoc, List.append_assoc, List.append_assoc]
      norm_num [leftPts, bottomPts, rightPts, topPts, List.append_assoc,
        List.singleton_append, List.cons_append]
      try omega

theorem traceRing {img : Image} {ax ay : Int} {m n : Nat}
    (hsol : GridRect img ax ay m n) (hm : 2 ≤ m) (hn : 3 ≤ n)
    (hmn : m + n ≤ 2502) :
    traceAux img 4 ax ay 5000 ax ay 0 [] = ringPath ax ay m n := by
  have h := traceTopLeg hsol hm hn (m - 1)
    (by rw [Nat.cast_sub (by omega : 1 ≤ m)]; omega) 5000 (by omega) []
  rw [show ax + 4 * ((m : Int) - 1 - ((m - 1 : Nat) : Int)) = ax
    from by rw [Nat.cast_sub (by omega : 1 ≤ m)]; ring] at h
  rw [h]
  unfold ringPath
  simp [List.append_assoc]

/-! ### The rectangle image -/

theorem rect_getVal (w h x0 y0 W H : Nat) (hw : 0 < w) (x y : Int) :
    getVal (rectImage w h x0 y0 W H) x y = 1 ↔
      (0 ≤ x ∧ x < (w : Int) ∧ 0 ≤ y ∧ y < (h : Int)
        ∧ (x0 : Int) ≤ x ∧ x < (x0 : Int) + W ∧ (y0 : Int) ≤ y ∧ y < (y0 : Int) + H) := by
  rw [getVal_eq_one_iff]
  by_cases hb : 0 ≤ x ∧ x < (w : Int) ∧ 0 ≤ y ∧ y < (h : Int)
  · obtain ⟨hb1, hb2, hb3, hb4⟩ := hb
    have hxnw : x.toNat < w := by omega
    have hmod : (y.toNat * w + x.toNat) % w = x.toNat := by
      rw [mul_comm y.toNat w, Nat.mul_add_mod]
      exact Nat.mod_eq_of_lt hxnw
    have hdiv : (y.toNat * w + x.toNat) / w = y.toNat := by
      rw [mul_comm, Nat.mul_add_div hw, Nat.div_eq_of_lt hxnw, Nat.add_zero]
    have hidx4 : ((y.toNat * w + x.toNat) * 4 + 3) % 4 = 3 := by omega
    have hidxd : ((y.toNat * w + x.toNat) * 4 + 3) / 4 = y.toNat * w + x.toNat := by
      omega
    show _ ∧ _ ∧ _ ∧ _ ∧ alphaThreshold
        < (rectImage w h x0 y0 W H).data ((y.toNat * (rectImage w h x0 y0 W H).w
            + x.toNat) * 4 + 3) ↔ _
    simp only [rectImage]
    rw [hidx4, hidxd, hmod, hdiv]
    by_cases hr : x0 ≤ x.toNat ∧ x.toNat < x0 + W ∧ y0 ≤ y.toNat ∧ y.toNat < y0 + H
    · rw [if_pos ⟨rfl, hr.1, hr.2.1, hr.2.2.1, hr.2.2.2⟩]
      unfold alphaThreshold
      omega
    · rw [if_neg (fun hcon => hr ⟨hcon.2.1, hcon.2.2.1, hcon.2.2.2.1, hcon.2.2.2.2⟩)]
      unfold alphaThreshold
      omega
  · constructor
    · intro hcon
      exact absurd ⟨hcon.1, hcon.2.1, hcon.2.2.1, hcon.2.2.2.1⟩ hb
    · intro hcon
      exact absurd ⟨hcon.1, hcon.2.1, hcon.2.2.1, hcon.2.2.2.1⟩ hb

theorem rect_grid (w h x0 y0 W H : Nat)
    (hW : 4 ≤ W) (hH : 4 ≤ H) (hxw : x0 + W ≤ w) (hyh : y0 + H ≤ h) :
    GridRect (rectImage w h x0 y0 W H)
      (((x0 + 3) / 4 * 4 : Nat) : Int) (((y0 + 3) / 4 * 4 : Nat) : Int)
      ((x0 + W - 1) / 4 - (x0 + 3) / 4 + 1) ((y0 + H - 1) / 4 - (y0 + 3) / 4 + 1) := by
  intro dx dy
  rw [isSolid_iff_getVal, rect_getVal w h x0 y0 W H (by omega)]
  constructor
  · intro hcon
    omega
  · intro hcon
    omega

theorem rect_seed (w h x0 y0 W H : Nat)
    (hW : 4 ≤ W) (hH : 4 ≤ H) (hxw : x0 + W ≤ w) (hyh : y0 + H ≤ h) :
    findSeed (rectImage w h x0 y0 W H) 4
      = some ⟨(((x0 + 3) / 4 * 4 : Nat) : Int), (((y0 + 3) / 4 * 4 : Nat) : Int)⟩ := by
  unfold findSeed
  refine findSome?_first _ _ _ ((y0 + 3) / 4) ?_ ?_ ?_
  · rw [sampleCoords_length]
    show (y0 + 3) / 4 < (h + 4 - 1) / 4
    omega
  · intro j hj hji
    rw [sampleCoords_get]
    rw [List.findSome?_eq_none_iff]
    intro a ha
    obtain ⟨k, rfl, hk⟩ := sampleCoords_mem (by omega) ha
    rw [if_neg]
    rw [rect_getVal w h x0 y0 W H (by omega)]
    intro hcon
    have := hcon.2.2.2.2.2.2.1
    rw [sampleCoords_length] at hj
    push_cast at this
    omega
  · rw [sampleCoords_get]
    refine findSome?_first _ _ _ ((x0 + 3) / 4) ?_ ?_ ?_
    · rw [sampleCoords_length]
      show (x0 + 3) / 4 < (w + 4 - 1) / 4
      omega
    · intro j hj hji
      rw [sampleCoords_get]
      rw [if_neg]
      rw [rect_getVal w h x0 y0 W H (by omega)]
      intro hcon
      have := hcon.2.2.2.2.1
      rw [sampleCoords_length] at hj
      push_cast at this
      omega
    · rw [sampleCoords_get]
      rw [if_pos]
      rw [rect_getVal w h x0 y0 W H (by omega)]
      push_cast
      omega

/-! ### Simplification of the ring -/

theorem kept_or_lastKept_close (L : Point) (A : List Point) (p : Point) (S : List Point) :
    p ∈ simplifyAux L (A ++ ([p] ++ S))
    ∨ (distSq (lastKept L A) p ≤ 225
        ∧ (lastKept L A = L
            ∨ (lastKept L A ∈ A ∧ lastKept L A ∈ simplifyAux L (A ++ ([p] ++ S))))) := by
  have hsplit : simplifyAux L (A ++ ([p] ++ S))
      = simplifyAux L A ++ simplifyAux (lastKept L A) ([p] ++ S) :=
    simplifyAux_append L A ([p] ++ S)
  rcases last_kept_or_close L A p with hk | hclose
  · left
    have h2 : simplifyAux L (A ++ [p]) ++ simplifyAux (lastKept L (A ++ [p])) S
        = simplifyAux L (A ++ ([p] ++ S)) := by
      rw [← simplifyAux_append L (A ++ [p]) S, List.append_assoc]
    rw [← h2]
    exact List.mem_append_left _ hk
  · right
    refine ⟨hclose, ?_⟩
    rcases lastKept_mem L A with h | h
    · left; exact h
    · right
      exact ⟨mem_simplifyAux _ _ _ h, by rw [hsplit]; exact List.mem_append_left _ h⟩

theorem exists_keeper (L : Point) (A S : List Point) (p : Point)
    (hL : ¬ distSq L p ≤ 225) :
    ∃ q, q ∈ simplifyAux L (A ++ ([p] ++ S))
      ∧ (q = p ∨ (q ∈ A ∧ distSq q p ≤ 225)) := by
  rcases kept_or_lastKept_close L A p S with h | ⟨hclose, hmem⟩
  · exact ⟨p, h, Or.inl rfl⟩
  · rcases hmem with heq | ⟨hA, hkept⟩
    · rw [heq] at hclose
      exact absurd hclose hL
    · exact ⟨lastKept L A, hkept, Or.inr ⟨hA, hclose⟩⟩

theorem distSq_lower_x (p q : Point) : (p.x - q.x) ^ 2 ≤ distSq p q := by
  unfold distSq
  nlinarith [sq_nonneg (p.y - q.y)]

theorem distSq_lower_y (p q : Point) : (p.y - q.y) ^ 2 ≤ distSq p q := by
  unfold distSq
  nlinarith [sq_nonneg (p.x - q.x)]

theorem sq_gt_225 {a : Int} (h : 16 ≤ a ∨ a ≤ -16) : 225 < a ^ 2 := by
  rcases h with h | h <;> nlinarith

theorem three_distinct_length {l : List Point} {a b c : Point}
    (ha : a ∈ l) (hb : b ∈ l) (hc : c ∈ l)
    (hab : a ≠ b) (hac : a ≠ c) (hbc : b ≠ c) : 3 ≤ l.length := by
  match l with
  | [] => cases ha
  | [x] =>
    simp only [List.mem_singleton] at ha hb
    exact absurd (ha.trans hb.symm) hab
  | [x, y] =>
    simp only [List.mem_cons, List.mem_singleton, List.not_mem_nil, or_false] at ha hb hc
    rcases ha with rfl | rfl <;> rcases hb with h | h <;> rcases hc with h2 | h2 <;>
      first
        | exact absurd h.symm hab
        | exact absurd h2.symm hac
        | exact absurd (h.trans h2.symm) hbc
  | x :: y :: z :: t =>
    simp only [List.length_cons]
    omega

theorem topPts_mem {ax ay : Int} {m : Nat} :
    ∀ r, ∀ p ∈ topPts ax ay m r,
      p.y = ay ∧ ax + 4 * ((m : Int) - 1 - (r : Int)) ≤ p.x
        ∧ p.x ≤ ax + 4 * ((m : Int) - 1)
  | 0, p, hp => by
    simp only [topPts, List.mem_singleton] at hp
    subst hp
    refine ⟨rfl, ?_, ?_⟩ <;> push_cast <;> omega
  | r + 1, p, hp => by
    rcases List.mem_cons.mp hp with rfl | hp'
    · exact ⟨rfl, by push_cast; omega, by push_cast; omega⟩
    · obtain ⟨h1, h2, h3⟩ := topPts_mem r p hp'
      refine ⟨h1, ?_, h3⟩
      push_cast at h2 ⊢
      omega

theorem rightPts_mem {ax ay : Int} {m n : Nat} :
    ∀ r, ∀ p ∈ rightPts ax ay m n r,
      p.x = ax + 4 * ((m : Int) - 1) ∧ ay + 4 * ((n : Int) - 1 - (r : Int)) ≤ p.y
        ∧ p.y ≤ ay + 4 * ((n : Int) - 1)
  | 0, p, hp => by
    simp only [rightPts, List.mem_singleton] at hp
    subst hp
    refine ⟨rfl, ?_, ?_⟩ <;> push_cast <;> omega
  | r + 1, p, hp => by
    rcases List.mem_cons.mp hp with rfl | hp'
    · exact ⟨rfl, by push_cast; omega, by push_cast; omega⟩
    · obtain ⟨h1, h2, h3⟩ := rightPts_mem r p hp'
      refine ⟨h1, ?_, h3⟩
      push_cast at h2 ⊢
      omega

theorem bottomPts_mem {ax ay : Int} {n : Nat} :
    ∀ i, ∀ p ∈ bottomPts ax ay n i,
      p.y = ay + 4 * ((n : Int) - 1) ∧ ax ≤ p.x ∧ p.x ≤ ax + 4 * ((i : Int))
  | 0, p, hp => by
    simp only [bottomPts, List.mem_singleton] at hp
    subst hp
    refine ⟨rfl, ?_, ?_⟩ <;> push_cast <;> omega
  | i + 1, p, hp => by
    rcases List.mem_cons.mp hp with rfl | hp'
    · exact ⟨rfl, by push_cast; omega, by push_cast; omega⟩
    · obtain ⟨h1, h2, h3⟩ := bottomPts_mem i p hp'
      refine ⟨h1, h2, ?_⟩
      push_cast at h3 ⊢
      omega

theorem leftPts_mem {ax ay : Int} :
    ∀ j, ∀ p ∈ leftPts ax ay j,
      p.x = ax ∧ ay + 4 ≤ p.y ∧ p.y ≤ ay + 4 * ((j : Int))
  | 0, p, hp => by cases hp
  | j + 1, p, hp => by
    rcases List.mem_cons.mp hp with rfl | hp'
    · refine ⟨rfl, ?_, ?_⟩ <;> push_cast <;> omega
    · obtain ⟨h1, h2, h3⟩ := leftPts_mem j p hp'
      refine ⟨h1, h2, ?_⟩
      push_cast at h3 ⊢
      omega

theorem topPts_decomp {ax ay : Int} {m : Nat} :
    ∀ r, ∃ A, topPts ax ay m r = A ++ [⟨ax + 4 * ((m : Int) - 1), ay⟩]
      ∧ ∀ p ∈ A, p.y = ay ∧ ax + 4 * ((m : Int) - 1 - (r : Int)) ≤ p.x
          ∧ p.x ≤ ax + 4 * ((m : Int) - 1) - 4
  | 0 => ⟨[], rfl, by simp⟩
  | r + 1 => by
    obtain ⟨A, hA, hAp⟩ := @topPts_decomp ax ay m r
    refine ⟨⟨ax + 4 * ((m : Int) - 1 - ((r + 1 : Nat) : Int)), ay⟩ :: A, ?_, ?_⟩
    · rw [show topPts ax ay m (r + 1)
          = ⟨ax + 4 * ((m : Int) - 1 - ((r + 1 : Nat) : Int)), ay⟩ :: topPts ax ay m r
        from rfl, hA, List.cons_append]
    · intro p hp
      rcases List.mem_cons.mp hp with rfl | hp'
      · refine ⟨rfl, by push_cast; omega, by push_cast; omega⟩
      · obtain ⟨h1, h2, h3⟩ := hAp p hp'
        refine ⟨h1, ?_, h3⟩
        push_cast at h2 ⊢
        omega

theorem rightPts_decomp {ax ay : Int} {m n : Nat} :
    ∀ r, ∃ A, rightPts ax ay m n r
        = A ++ [⟨ax + 4 * ((m : Int) - 1), ay + 4 * ((n : Int) - 1)⟩]
      ∧ ∀ p ∈ A, p.x = ax + 4 * ((m : Int) - 1)
          ∧ p.y ≤ ay + 4 * ((n : Int) - 1) - 4
  | 0 => ⟨[], rfl, by simp⟩
  | r + 1 => by
    obtain ⟨A, hA, hAp⟩ := @rightPts_decomp ax ay m n r
    refine ⟨⟨ax + 4 * ((m : Int) - 1), ay + 4 * ((n : Int) - 1 - ((r + 1 : Nat) : Int))⟩
        :: A, ?_, ?_⟩
    · rw [show rightPts ax ay m n (r + 1)
          = ⟨ax + 4 * ((m : Int) - 1), ay + 4 * ((n : Int) - 1 - ((r + 1 : Nat) : Int))⟩
              :: rightPts ax ay m n r
        from rfl, hA, List.cons_append]
    · intro p hp
      rcases List.mem_cons.mp hp with rfl | hp'
      · refine ⟨rfl, by push_cast; omega⟩
      · exact hAp p hp'

theorem bottomPts_decomp {ax ay : Int} {n : Nat} :
    ∀ i, ∃ A, bottomPts ax ay n i = A ++ [⟨ax, ay + 4 * ((n : Int) - 1)⟩]
      ∧ ∀ p ∈ A, p.y = ay + 4 * ((n : Int) - 1) ∧ ax + 4 ≤ p.x
  | 0 => ⟨[], rfl, by simp⟩
  | i + 1 => by
    obtain ⟨A, hA, hAp⟩ := @bottomPts_decomp ax ay n i
    refine ⟨⟨ax + 4 * ((i + 1 : Nat) : Int), ay + 4 * ((n : Int) - 1)⟩ :: A, ?_, ?_⟩
    · rw [show bottomPts ax ay n (i + 1)
          = ⟨ax + 4 * ((i + 1 : Nat) : Int), ay + 4 * ((n : Int) - 1)⟩
              :: bottomPts ax ay n i
        from rfl, hA, List.cons_append]
    · intro p hp
      rcases List.mem_cons.mp hp with rfl | hp'
      · refine ⟨rfl, by push_cast; omega⟩
      · exact hAp p hp'

theorem ring_simplify {ax ay : Int} {m n : Nat} (hm : 5 ≤ m) (hn : 5 ≤ n) :
    (simplify (ringPath ax ay m n)).head? = some ⟨ax, ay⟩
    ∧ ⟨ax, ay⟩ ∈ simplify (ringPath ax ay m n)
    ∧ 3 ≤ (simplify (ringPath ax ay m n)).length
    ∧ (∃ q ∈ simplify (ringPath ax ay m n), q.x = ax + 4 * ((m : Int) - 1))
    ∧ (∃ q ∈ simplify (ringPath ax ay m n), q.y = ay + 4 * ((n : Int) - 1)) := by
  have hhead : ax + 4 * ((m : Int) - 1 - (((m - 2) + 1 : Nat) : Int)) = ax := by
    push_cast [Nat.cast_sub (show 2 ≤ m by omega)]
    ring
  have hring : ringPath ax ay m n
      = ⟨ax, ay⟩ :: (topPts ax ay m (m - 2)
          ++ (rightPts ax ay m n (n - 2)
          ++ (bottomPts ax ay n (m - 2) ++ leftPts ax ay (n - 2)))) := by
    unfold ringPath
    rw [show m - 1 = (m - 2) + 1 from by omega]
    rw [show topPts ax ay m ((m - 2) + 1)
        = ⟨ax + 4 * ((m : Int) - 1 - (((m - 2) + 1 : Nat) : Int)), ay⟩
            :: topPts ax ay m (m - 2) from rfl]
    rw [hhead]
    simp [List.cons_append, List.append_assoc]
  have hS : simplify (ringPath ax ay m n)
      = ⟨ax, ay⟩ :: simplifyAux ⟨ax, ay⟩ (topPts ax ay m (m - 2)
          ++ (rightPts ax ay m n (n - 2)
          ++ (bottomPts ax ay n (m - 2) ++ leftPts ax ay (n - 2)))) := by
    rw [hring, simplify_cons]
  -- a kept point on the right column
  obtain ⟨RI, hRI, hRIp⟩ :=
    @rightPts_decomp ax ay m n (n - 2)
  have hrearr2 : topPts ax ay m (m - 2) ++ (rightPts ax ay m n (n - 2)
      ++ (bottomPts ax ay n (m - 2) ++ leftPts ax ay (n - 2)))
      = (topPts ax ay m (m - 2) ++ RI)
        ++ ([⟨ax + 4 * ((m : Int) - 1), ay + 4 * ((n : Int) - 1)⟩]
          ++ (bottomPts ax ay n (m - 2) ++ leftPts ax ay (n - 2))) := by
    rw [hRI]
    simp [List.append_assoc]
  have hfar2 : ¬ distSq ⟨ax, ay⟩
      ⟨ax + 4 * ((m : Int) - 1), ay + 4 * ((n : Int) - 1)⟩ ≤ 225 := by
    intro hle
    have h1 : (ay - (ay + 4 * ((n : Int) - 1))) ^ 2
        ≤ distSq ⟨ax, ay⟩ ⟨ax + 4 * ((m : Int) - 1), ay + 4 * ((n : Int) - 1)⟩ :=
      distSq_lower_y _ _
    have h2 : 225 < (ay - (ay + 4 * ((n : Int) - 1))) ^ 2 :=
      sq_gt_225 (Or.inr (by omega))
    linarith
  obtain ⟨q2, hq2kept, hq2⟩ := exists_keeper ⟨ax, ay⟩ (topPts ax ay m (m - 2) ++ RI)
    (bottomPts ax ay n (m - 2) ++ leftPts ax ay (n - 2))
    ⟨ax + 4 * ((m : Int) - 1), ay + 4 * ((n : Int) - 1)⟩ hfar2
  rw [← hrearr2] at hq2kept
  have hq2x : q2.x = ax + 4 * ((m : Int) - 1) := by
    rcases hq2 with rfl | ⟨hmem, hclose⟩
    · rfl
    · rcases List.mem_append.mp hmem with hmem' | hmem'
      · obtain ⟨hy, _, _⟩ := topPts_mem (m - 2) q2 hmem'
        exfalso
        have h1 : (q2.y - (ay + 4 * ((n : Int) - 1))) ^ 2
            ≤ distSq q2 ⟨ax + 4 * ((m : Int) - 1), ay + 4 * ((n : Int) - 1)⟩ :=
          distSq_lower_y _ _
        have h2 : 225 < (q2.y - (ay + 4 * ((n : Int) - 1))) ^ 2 := by
          rw [hy]
          exact sq_gt_225 (Or.inr (by omega))
        linarith
      · exact (hRIp q2 hmem').1
  -- a kept point on the bottom row
  obtain ⟨BI, hBI, hBIp⟩ := @bottomPts_decomp ax ay n (m - 2)
  have hrearr3 : topPts ax ay m (m - 2) ++ (rightPts ax ay m n (n - 2)
      ++ (bottomPts ax ay n (m - 2) ++ leftPts ax ay (n - 2)))
      = (topPts ax ay m (m - 2) ++ (rightPts ax ay m n (n - 2) ++ BI))
        ++ ([⟨ax, ay + 4 * ((n : Int) - 1)⟩] ++ leftPts ax ay (n - 2)) := by
    rw [hBI]
    simp [List.append_assoc]
  have hfar3 : ¬ distSq ⟨ax, ay⟩ ⟨ax, ay + 4 * ((n : Int) - 1)⟩ ≤ 225 := by
    intro hle
    have h1 : (ay - (ay + 4 * ((n : Int) - 1))) ^ 2
        ≤ distSq ⟨ax, ay⟩ ⟨ax, ay + 4 * ((n : Int) - 1)⟩ := distSq_lower_y _ _
    have h2 : 225 < (ay - (ay + 4 * ((n : Int) - 1))) ^ 2 :=
      sq_gt_225 (Or.inr (by omega))
    linarith
  obtain ⟨q3, hq3kept, hq3⟩ := exists_keeper ⟨ax, ay⟩
    (topPts ax ay m (m - 2) ++ (rightPts ax ay m n (n - 2) ++ BI))
    (leftPts ax ay (n - 2)) ⟨ax, ay + 4 * ((n : Int) - 1)⟩ hfar3
  rw [← hrearr3] at hq3kept
  have hq3y : q3.y = ay + 4 * ((n : Int) - 1) := by
    rcases hq3 with rfl | ⟨hmem, hclose⟩
    · rfl
    · rcases List.mem_append.mp hmem with hmem' | hmem'
      · obtain ⟨hy, _, _⟩ := topPts_mem (m - 2) q3 hmem'
        exfalso
        have h1 : (q3.y - (ay + 4 * ((n : Int) - 1))) ^ 2
            ≤ distSq q3 ⟨ax, ay + 4 * ((n : Int) - 1)⟩ := distSq_lower_y _ _
        have h2 : 225 < (q3.y - (ay + 4 * ((n : Int) - 1))) ^ 2 := by
          rw [hy]
          exact sq_gt_225 (Or.inr (by omega))
        linarith
      · rcases List.mem_append.mp hmem' with hmem'' | hmem''
        · obtain ⟨hx, _, _⟩ := rightPts_mem (n - 2) q3 hmem''
          exfalso
          have h1 : (q3.x - ax) ^ 2
              ≤ distSq q3 ⟨ax, ay + 4 * ((n : Int) - 1)⟩ := distSq_lower_x _ _
          have h2 : 225 < (q3.x - ax) ^ 2 := by
            rw [hx]
            exact sq_gt_225 (Or.inl (by omega))
          linarith
        · exact (hBIp q3 hmem'').1
  -- a kept point on the top row away from the seed
  obtain ⟨TI, hTI, hTIp⟩ := @topPts_decomp ax ay m (m - 2)
  have hrearr4 : topPts ax ay m (m - 2) ++ (rightPts ax ay m n (n - 2)
      ++ (bottomPts ax ay n (m - 2) ++ leftPts ax ay (n - 2)))
      = TI ++ ([⟨ax + 4 * ((m : Int) - 1), ay⟩]
          ++ (rightPts ax ay m n (n - 2)
            ++ (bottomPts ax ay n (m - 2) ++ leftPts ax ay (n - 2)))) := by
    rw [hTI]
    simp [List.append_assoc]
  have hfar4 : ¬ distSq ⟨ax, ay⟩ ⟨ax + 4 * ((m : Int) - 1), ay⟩ ≤ 225 := by
    intro hle
    have h1 : (ax - (ax + 4 * ((m : Int) - 1))) ^ 2
        ≤ distSq ⟨ax, ay⟩ ⟨ax + 4 * ((m : Int) - 1), ay⟩ := distSq_lower_x _ _
    have h2 : 225 < (ax - (ax + 4 * ((m : Int) - 1))) ^ 2 :=
      sq_gt_225 (Or.inr (by omega))
    linarith
  obtain ⟨q4, hq4kept, hq4⟩ := exists_keeper ⟨ax, ay⟩ TI
    (rightPts ax ay m n (n - 2)
      ++ (bottomPts ax ay n (m - 2) ++ leftPts ax ay (n - 2)))
    ⟨ax + 4 * ((m : Int) - 1), ay⟩ hfar4
  rw [← hrearr4] at hq4kept
  have hq4fact : q4.y = ay ∧ ax + 4 ≤ q4.x := by
    rcases hq4 with rfl | ⟨hmem, _⟩
    · refine ⟨rfl, ?_⟩
      show ax + 4 ≤ ax + 4 * ((m : Int) - 1)
      omega
    · obtain ⟨hy, hlo, _⟩ := hTIp q4 hmem
      refine ⟨hy, ?_⟩
      have : ax + 4 * ((m : Int) - 1 - ((m - 2 : Nat) : Int)) = ax + 4 := by
        push_cast [Nat.cast_sub (show 2 ≤ m by omega)]
        ring
      omega
  -- assemble
  refine ⟨by rw [hS]; rfl, by rw [hS]; exact List.mem_cons_self _ _, ?_, ?_, ?_⟩
  · have hseedS : (⟨ax, ay⟩ : Point) ∈ simplify (ringPath ax ay m n) := by
      rw [hS]; exact List.mem_cons_self _ _
    have hq4S : q4 ∈ simplify (ringPath ax ay m n) := by
      rw [hS]; exact List.mem_cons_of_mem _ hq4kept
    have hq3S : q3 ∈ simplify (ringPath ax ay m n) := by
      rw [hS]; exact List.mem_cons_of_mem _ hq3kept
    refine three_distinct_length hseedS hq4S hq3S ?_ ?_ ?_
    · intro hcon
      have := congrArg Point.x hcon
      simp only at this
      omega
    · intro hcon
      have := congrArg Point.y hcon
      simp only at this
      omega
    · intro hcon
      have := congrArg Point.y hcon
      rw [hq4fact.1, hq3y] at this
      omega
  · refine ⟨q2, ?_, hq2x⟩
    rw [hS]
    exact List.mem_cons_of_mem _ hq2kept
  · refine ⟨q3, ?_, hq3y⟩
    rw [hS]
    exact List.mem_cons_of_mem _ hq3kept

theorem ringPath_mem {ax ay : Int} {m n : Nat} (hm : 2 ≤ m) (hn : 2 ≤ n) :
    ∀ p ∈ ringPath ax ay m n,
      ax ≤ p.x ∧ p.x ≤ ax + 4 * ((m : Int) - 1)
      ∧ ay ≤ p.y ∧ p.y ≤ ay + 4 * ((n : Int) - 1) := by
  intro p hp
  unfold ringPath at hp
  rcases List.mem_append.mp hp with hp1 | hpL
  rotate_left
  · obtain ⟨hx, hlo, hhi⟩ := leftPts_mem (n - 2) p hpL
    rw [Nat.cast_sub (show 2 ≤ n by omega)] at hhi
    refine ⟨by omega, by omega, by omega, by omega⟩
  rcases List.mem_append.mp hp1 with hp2 | hpB
  rotate_left
  · obtain ⟨hy, hlo, hhi⟩ := bottomPts_mem (m - 2) p hpB
    rw [Nat.cast_sub (show 2 ≤ m by omega)] at hhi
    refine ⟨by omega, by omega, by omega, by omega⟩
  rcases List.mem_append.mp hp2 with hpT | hpR
  · obtain ⟨hy, hlo, hhi⟩ := topPts_mem (m - 1) p hpT
    rw [Nat.cast_sub (show 1 ≤ m by omega)] at hlo
    refine ⟨by omega, by omega, by omega, by omega⟩
  · obtain ⟨hx, hlo, hhi⟩ := rightPts_mem (n - 2) p hpR
    rw [Nat.cast_sub (show 2 ≤ n by omega)] at hlo
    refine ⟨by omega, by omega, by omega, by omega⟩

theorem traceTopPartial_y {img : Image} {ax ay : Int} {m n : Nat}
    (hsol : GridRect img ax ay m n) (hn : 0 < (n : Int)) :
    ∀ (fuel : Nat) (i : Int), 0 ≤ i → i + fuel + 2 ≤ (m : Int) →
    ∀ (path : List Point), (∀ p ∈ path, p.y = ay) →
    ∀ p ∈ traceAux img 4 ax ay fuel (ax + 4 * i) ay 0 path, p.y = ay
  | 0, i, hi0, him, path, hpath, p, hp => by
    have htd := rtry_top_straight hsol i hi0 (by omega) hn
    rw [traceAux_zero path htd] at hp
    rcases List.mem_append.mp hp with h | h
    · exact hpath p h
    · rw [List.mem_singleton] at h
      subst h
      rfl
  | fuel + 1, i, hi0, him, path, hpath, p, hp => by
    have htd := rtry_top_straight hsol i hi0 (by omega) hn
    by_cases hc : ((ax + 4 * (i + 1) ≠ ax ∨ ay ≠ ay) ∧ 0 < fuel)
    · rw [traceAux_step path htd hc] at hp
      refine traceTopPartial_y hsol hn fuel (i + 1) (by omega) (by omega) _ ?_ p hp
      intro q hq
      rcases List.mem_append.mp hq with h | h
      · exact hpath q h
      · rw [List.mem_singleton] at h
        subst h
        rfl
    · rw [traceAux_last path htd hc] at hp
      rcases List.mem_append.mp hp with h | h
      · exact hpath p h
      · rw [List.mem_singleton] at h
        subst h
        rfl

/-- C2 counterexamples, one for each bound of the amendment.  (i) An 8×8
image whose opaque region is a filled 8×8 rectangle, exactly 2× the sampling
step in both dimensions: extraction returns a single point, because the
whole traced ring lies within the 15-pixel simplification distance of the
seed, so at the claim's stated 2×-step minimum no contour with at least 3
points exists.  (ii) A 20008×24 image whose opaque region fills it: the
5000-iteration trace budget runs out while the tracer is still walking the
seed row, so every extracted point has y = 0 and the contour's bounding box
misses the far horizontal side of the rectangle by 20 pixels — the claimed
guarantee also fails once the rectangle's perimeter exceeds the trace
budget. -/
theorem rect_size_counterexamples :
    (2 * 4 ≤ 8 ∧ 2 * 4 ≤ 8
      ∧ getVerticesFromImage (rectImage 8 8 0 0 8 8) 4 = some [⟨0, 0⟩]
      ∧ ¬ (3 ≤ ([(⟨0, 0⟩ : Point)] : List Point).length))
    ∧ (5 * 4 ≤ 20008 ∧ 5 * 4 ≤ 24 ∧ ¬ (20008 + 24 ≤ 10000)
      ∧ ∃ pts, getVerticesFromImage (rectImage 20008 24 0 0 20008 24) 4 = some pts
        ∧ ¬ (∃ p ∈ pts, (0 : Int) + 24 ≤ p.y + 4)) := by
  refine ⟨⟨by decide, by decide, by decide, by decide⟩,
    by decide, by decide, by decide, ?_⟩
  have hgrid := rect_grid 20008 24 0 0 20008 24 (by norm_num) (by norm_num)
    (by norm_num) (by norm_num)
  have hgrid' : GridRect (rectImage 20008 24 0 0 20008 24) 0 0 5002 6 := hgrid
  have hseed := rect_seed 20008 24 0 0 20008 24 (by norm_num) (by norm_num)
    (by norm_num) (by norm_num)
  have hseed' : findSeed (rectImage 20008 24 0 0 20008 24) 4 = some ⟨0, 0⟩ := hseed
  refine ⟨simplify (tracePath (rectImage 20008 24 0 0 20008 24) 4 ⟨0, 0⟩),
    getVertices_some hseed', ?_⟩
  rintro ⟨p, hp, hple⟩
  have hrow := traceTopPartial_y hgrid' (by norm_num) 5000 0 le_rfl (by norm_num)
    [] (fun q hq => absurd hq (List.not_mem_nil q))
  rw [show (0 : Int) + 4 * 0 = 0 from by ring] at hrow
  have hy : p.y = 0 := hrow p (mem_simplify p _ hp)
  omega

/-- C2 (amended): for every image whose opaque region is a single filled
axis-aligned rectangle measuring at least 5× the sampling step in both
dimensions and whose width plus height is at most 2500× the step (so its
perimeter fits the 5000-iteration trace budget), extraction returns a
contour with at least 3 points, all lying inside the opaque rectangle,
whose bounding box matches the rectangle's bounds to within one sampling
step on every side. -/
theorem rect_extraction_amended (w h x0 y0 W H : Nat)
    (hW1 : 20 ≤ W) (hH1 : 20 ≤ H) (hWH : W + H ≤ 10000)
    (hxw : x0 + W ≤ w) (hyh : y0 + H ≤ h) :
    ∃ pts, getVerticesFromImage (rectImage w h x0 y0 W H) 4 = some pts
      ∧ 3 ≤ pts.length
      ∧ (∀ p ∈ pts, (x0 : Int) ≤ p.x ∧ p.x < (x0 : Int) + W
          ∧ (y0 : Int) ≤ p.y ∧ p.y < (y0 : Int) + H)
      ∧ (∃ p ∈ pts, p.x < (x0 : Int) + 4)
      ∧ (∃ p ∈ pts, (x0 : Int) + W ≤ p.x + 4)
      ∧ (∃ p ∈ pts, p.y < (y0 : Int) + 4)
      ∧ (∃ p ∈ pts, (y0 : Int) + H ≤ p.y + 4) := by
  have hgrid := rect_grid w h x0 y0 W H (by omega) (by omega) hxw hyh
  have hseed := rect_seed w h x0 y0 W H (by omega) (by omega) hxw hyh
  have htrace := traceRing hgrid (by omega) (by omega) (by omega)
  have htrace2 : tracePath (rectImage w h x0 y0 W H) 4
      ⟨(((x0 + 3) / 4 * 4 : Nat) : Int), (((y0 + 3) / 4 * 4 : Nat) : Int)⟩
      = ringPath (((x0 + 3) / 4 * 4 : Nat) : Int) (((y0 + 3) / 4 * 4 : Nat) : Int)
          ((x0 + W - 1) / 4 - (x0 + 3) / 4 + 1)
          ((y0 + H - 1) / 4 - (y0 + 3) / 4 + 1) := htrace
  obtain ⟨hhead, hmem, hlen, ⟨q2, hq2S, hq2x⟩, ⟨q3, hq3S, hq3y⟩⟩ :=
    @ring_simplify (((x0 + 3) / 4 * 4 : Nat) : Int)
      (((y0 + 3) / 4 * 4 : Nat) : Int)
      ((x0 + W - 1) / 4 - (x0 + 3) / 4 + 1)
      ((y0 + H - 1) / 4 - (y0 + 3) / 4 + 1)
      (by omega) (by omega)
  refine ⟨simplify (ringPath (((x0 + 3) / 4 * 4 : Nat) : Int)
      (((y0 + 3) / 4 * 4 : Nat) : Int)
      ((x0 + W - 1) / 4 - (x0 + 3) / 4 + 1)
      ((y0 + H - 1) / 4 - (y0 + 3) / 4 + 1)),
    by rw [getVertices_some hseed, htrace2], hlen, ?_, ?_, ?_, ?_, ?_⟩
  · intro p hp
    have hres := ringPath_mem (by omega) (by omega) p (mem_simplify p _ hp)
    obtain ⟨h1, h2, h3, h4⟩ := hres
    refine ⟨by omega, by omega, by omega, by omega⟩
  · refine ⟨_, hmem, ?_⟩
    show (((x0 + 3) / 4 * 4 : Nat) : Int) < (x0 : Int) + 4
    omega
  · refine ⟨q2, hq2S, ?_⟩
    rw [hq2x]
    omega
  · refine ⟨_, hmem, ?_⟩
    show (((y0 + 3) / 4 * 4 : Nat) : Int) < (y0 : Int) + 4
    omega
  · refine ⟨q3, hq3S, ?_⟩
    rw [hq3y]
    omega

/-- Instantiation of the amended rectangle theorem at a concrete image:
64×64 canvas, opaque rectangle at (1, 2) of size 30×25. -/
theorem rect_extraction_amended_witness :
    (20 ≤ 30 ∧ 20 ≤ 25 ∧ 30 + 25 ≤ 10000 ∧ 1 + 30 ≤ 64 ∧ 2 + 25 ≤ 64)
    ∧ (∃ pts, getVerticesFromImage (rectImage 64 64 1 2 30 25) 4 = some pts
      ∧ 3 ≤ pts.length
      ∧ (∀ p ∈ pts, (1 : Int) ≤ p.x ∧ p.x < (1 : Int) + 30
          ∧ (2 : Int) ≤ p.y ∧ p.y < (2 : Int) + 25)
      ∧ (∃ p ∈ pts, p.x < (1 : Int) + 4)
      ∧ (∃ p ∈ pts, (1 : Int) + 30 ≤ p.x + 4)
      ∧ (∃ p ∈ pts, p.y < (2 : Int) + 4)
      ∧ (∃ p ∈ pts, (2 : Int) + 25 ≤ p.y + 4)) :=
  ⟨⟨by decide, by decide, by decide, by decide, by decide⟩,
   rect_extraction_amended 64 64 1 2 30 25 (by decide) (by decide) (by decide)
     (by decide) (by decide)⟩

/-- Instantiation of the extraction invariant on a concrete image. -/
theorem extraction_invariant_witness :
    (0 < 4 ∧ getVerticesFromImage (rectImage 8 8 0 0 8 8) 4 = some [⟨0, 0⟩])
    ∧ ([(⟨0, 0⟩ : Point)] ≠ []
      ∧ ∃ seed, findSeed (rectImage 8 8 0 0 8 8) 4 = some seed
          ∧ [(⟨0, 0⟩ : Point)].head? = some seed) :=
  ⟨⟨by decide, by decide⟩,
   (extraction_invariant (rectImage 8 8 0 0 8 8) 4 [⟨0, 0⟩] (by decide) (by decide)).1,
   (extraction_invariant (rectImage 8 8 0 0 8 8) 4 [⟨0, 0⟩] (by decide) (by decide)).2.1⟩

end Game
